import Mathlib

/-!
Verification of `SpringRank_tools.py` (SpringRankGroups repository).

The source manipulates dense/sparse numpy matrices.  We embed matrices as
rectangular lists of lists of rationals (`Mat`), vectors as lists of
rationals (`Vec`); every numpy/scipy operation used by the source is
translated into an executable Lean function on this representation.
Transcendental library functions (`np.exp`, `np.sqrt`) and the random
draws of `numpy.random` have no exact counterpart on `ℚ`; they are
modelled as explicit parameters (`NumEnv`) and as explicit streams of
source values (`RStream`), so that every theorem quantifies over them or
fixes concrete instances.
-/

abbrev Vec := List ℚ

abbrev Mat := List (List ℚ)

/-- Entry access with zero padding, matching out-of-range reads never
performed by the (well-formed) source. -/
def vget (v : Vec) (i : Nat) : ℚ := v.getD i 0

/-- Matrix entry access with zero padding. -/
def mget (M : Mat) (i j : Nat) : ℚ := (M.getD i []).getD j 0

def mkVec (n : Nat) (f : Nat → ℚ) : Vec := (List.range n).map f

def mkMat (n m : Nat) (f : Nat → Nat → ℚ) : Mat :=
  (List.range n).map (fun i => mkVec m (f i))

def numRows (M : Mat) : Nat := M.length

def numCols (M : Mat) : Nat := (M.headD []).length

/-- `M` is a well-formed `n × m` matrix. -/
def RectM (M : Mat) (n m : Nat) : Prop :=
  M.length = n ∧ ∀ r ∈ M, r.length = m

instance (M : Mat) (n m : Nat) : Decidable (RectM M n m) := by
  unfold RectM; infer_instance

/-- Finite sum `f 0 + ... + f (n-1)`, as the source's accumulation loops. -/
def sumR (n : Nat) (f : Nat → ℚ) : ℚ := ((List.range n).map f).sum

/-- numpy `A.sum(axis=1)` (out-degrees `k_out` when applied to `A`). -/
def rowSums (M : Mat) : Vec := M.map List.sum

/-- numpy `A.sum(axis=0)` (in-degrees `k_in` when applied to `A`). -/
def colSums (M : Mat) : Vec := mkVec (numCols M) (fun j => (M.map (fun r => r.getD j 0)).sum)

/-- numpy elementwise `u + v` (same length in all source uses). -/
def vadd (u v : Vec) : Vec := mkVec u.length (fun i => vget u i + vget v i)

/-- numpy elementwise `u - v`. -/
def vsub (u v : Vec) : Vec := mkVec u.length (fun i => vget u i - vget v i)

/-- numpy `A.T`. -/
def mT (M : Mat) : Mat := mkMat (numCols M) (numRows M) (fun i j => mget M j i)

/-- numpy elementwise `A + B`. -/
def madd (A B : Mat) : Mat := mkMat (numRows A) (numCols A) (fun i j => mget A i j + mget B i j)

/-- numpy elementwise `A - B`. -/
def msub (A B : Mat) : Mat := mkMat (numRows A) (numCols A) (fun i j => mget A i j - mget B i j)

/-- numpy `c * A`. -/
def msmul (c : ℚ) (A : Mat) : Mat := mkMat (numRows A) (numCols A) (fun i j => c * mget A i j)

/-- `np.eye n` / `sp.eye n`. -/
def meye (n : Nat) : Mat := mkMat n n (fun i j => if i = j then 1 else 0)

/-- `np.diag v`. -/
def mdiag (v : Vec) : Mat :=
  mkMat v.length v.length (fun i j => if i = j then vget v i else 0)

/-- `scipy.sparse.spdiags(v, 0, n, n)`. -/
def spdiagsM (v : Vec) (n : Nat) : Mat :=
  mkMat n n (fun i j => if i = j then vget v i else 0)

/-- Matrix product `A @ B`. -/
def mmul (A B : Mat) : Mat :=
  mkMat (numRows A) (numCols B) (fun i k => sumR (numCols A) (fun j => mget A i j * mget B j k))

/-- Matrix-vector product `np.matmul(A, v)`. -/
def mvmul (A : Mat) (v : Vec) : Vec :=
  mkVec (numRows A) (fun i => sumR (numCols A) (fun j => mget A i j * vget v j))

/-- `sp.hstack([A, B])`. -/
def hstack (A B : Mat) : Mat :=
  mkMat (numRows A) (numCols A + numCols B)
    (fun i j => if j < numCols A then mget A i j else mget B i (j - numCols A))

/-- `sp.vstack([A, B])`. -/
def vstack (A B : Mat) : Mat :=
  mkMat (numRows A + numRows B) (numCols A)
    (fun i j => if i < numRows A then mget A i j else mget B (i - numRows A) j)

/-- scipy sparse `resize((n, m))`: keeps existing entries, pads with zeros. -/
def mresize (A : Mat) (n m : Nat) : Mat := mkMat n m (fun i j => mget A i j)

/-- Single entry assignment `A[r, c] = x`. -/
def mset (A : Mat) (r c : Nat) (x : ℚ) : Mat :=
  mkMat (numRows A) (numCols A) (fun i j => if i = r ∧ j = c then x else mget A i j)

/- ## Rank engine: `csr_SpringRank` and `SpringRank` -/

/-- The three scipy solvers used by the source, as abstract parameters.
`bicgstab` and `lsqr` return a pair (solution iterate, status flag),
matching `scipy.sparse.linalg.bicgstab -> (x, info)` and
`lsqr -> (x, istop, ...)`; `spsolve` returns the solution alone. -/
structure Solvers where
  spsolve : Mat → Vec → Vec
  bicgstab : Mat → Vec → Vec × Int
  lsqr : Mat → Vec → Vec × Int

/-- Graph Laplacian `L = diag(k_out + k_in) - (A + A.T)` as assembled at
lines 106-109 of the source. -/
def laplacian (A : Mat) : Mat :=
  msub (mdiag (vadd (rowSums A) (colSums A))) (madd A (mT A))

/-- The augmented `(N+1) x (N+1)` operator of `csr_SpringRank`
(lines 23-37): `spdiags(k_out+k_in,0,N,N) - A - A.T`, resized to
`(N+1, N+1)`, then `operator[N,0] = 1` and `operator[0,N] = 1`. -/
def csrOperator (A : Mat) : Mat :=
  let N := numRows A
  mset
    (mset
      (mresize (msub (msub (spdiagsM (vadd (rowSums A) (colSums A)) N) A) (mT A)) (N + 1) (N + 1))
      N 0 1)
    0 N 1

/-- The right-hand side of `csr_SpringRank` (line 40):
`np.append(k_out - k_in, [0])`. -/
def csrRhs (A : Mat) : Vec :=
  vsub (rowSums A) (colSums A) ++ [0]

/-- `csr_SpringRank` (lines 11-48): solve the augmented system with
`bicgstab`, keep only the first component of the solver output, and
return `ranks[:-1]`. -/
def csr_SpringRank (S : Solvers) (A : Mat) : Vec :=
  ((S.bicgstab (csrOperator A) (csrRhs A)).1).dropLast

/-- Right-hand side of the regularized branch of `SpringRank`
(lines 75-76): `d2 = k_out - k_in; B = alpha + d2` (numpy broadcast:
`alpha` is added to every entry). -/
def regRhs (A : Mat) (alpha : ℚ) : Vec :=
  let d2 := vsub (rowSums A) (colSums A)
  mkVec d2.length (fun i => alpha + vget d2 i)

/-- Operator of the regularized branch of `SpringRank` (lines 73-77):
`alpha*np.eye(N) + D1 - C` with `D1 = np.diag(k_out+k_in)`,
`C = A + A.T`. -/
def regOperator (A : Mat) (alpha : ℚ) : Mat :=
  madd (msmul alpha (meye (numRows A))) (msub (mdiag (vadd (rowSums A) (colSums A))) (madd A (mT A)))

/-- `SpringRank` (lines 51-81).  `np.transpose` of a 1-d array is the
identity, so the final transpose is dropped. -/
def SpringRank (S : Solvers) (A : Mat) (alpha : ℚ) : Vec :=
  if alpha = 0 then csr_SpringRank S A
  else (S.bicgstab (regOperator A alpha) (regRhs A alpha)).1

/-- Probe solver whose iterate is the right-hand side it was given:
used to observe which vector a rank routine passes to the solver. -/
def probeSolvers : Solvers :=
  { spsolve := fun _ v => v
    bicgstab := fun _ v => (v, 0)
    lsqr := fun _ v => (v, 0) }

/- ## Grouped rank engine: `SpringRank_groups` -/

/-- Column blocks `blocks[t] = L @ G_t` (lines 120-122), in the
iteration order of `G`. -/
def groupBlocks (L : Mat) (G : List (String × Mat)) : List (String × Mat) :=
  G.map (fun p => (p.1, mmul L p.2))

/-- One row block of the grouped operator (lines 136-141): starts from
`G_t.T @ L`, hstacks `G_t.T @ block_s` for every column block `s` in the
iteration order of `blocks`, adding `lambda_t * eye(n_t)` on the block
whose key equals `t`. -/
def groupRow (L : Mat) (blocks : List (String × Mat)) (t : String) (Gt : Mat) (lam : ℚ) : Mat :=
  blocks.foldl
    (fun cur sb =>
      if sb.1 = t then
        hstack cur (madd (mmul (mT Gt) sb.2) (msmul lam (meye (numCols Gt))))
      else hstack cur (mmul (mT Gt) sb.2))
    (mmul (mT Gt) L)

/-- The loop over `reg_coeff.items()` (lines 130-145): skips the
"individual" key; a group key of `reg_coeff` absent from `G` is a Python
`KeyError` (`none`); otherwise vstacks one row block and appends one
right-hand-side block per entry, in the iteration order of `reg_coeff`. -/
def groupsLoop (L : Mat) (kdiff : Vec) (G : List (String × Mat)) (blocks : List (String × Mat)) :
    List (String × ℚ) → Mat → Vec → Option (Mat × Vec)
  | [], K, d => some (K, d)
  | (t, lam) :: rest, K, d =>
    if t = "individual" then groupsLoop L kdiff G blocks rest K d
    else
      match G.lookup t with
      | none => none
      | some Gt =>
          groupsLoop L kdiff G blocks rest
            (vstack K (groupRow L blocks t Gt lam))
            (d ++ mvmul (mT Gt) kdiff)

/-- Assembly of the grouped system (`SpringRank_groups`, lines 100-145):
Laplacian, column blocks in the order of `G`, top block
`L + reg_coeff["individual"] * eye(N)` hstacked with every column block,
then the loop over `reg_coeff`.  A missing "individual" key is a Python
`KeyError` (`none`). -/
def SR_groups_assemble (A : Mat) (G : List (String × Mat)) (reg : List (String × ℚ)) :
    Option (Mat × Vec) :=
  match reg.lookup "individual" with
  | none => none
  | some lamInd =>
    let N := numRows A
    let L := laplacian A
    let blocks := groupBlocks L G
    let K0 := (blocks.map Prod.snd).foldl hstack (madd L (msmul lamInd (meye N)))
    let kdiff := vsub (rowSums A) (colSums A)
    groupsLoop L kdiff G blocks reg K0 kdiff

/-- Score slicing and rank reconstruction (lines 166-174), iterating the
group types in the order of `G` (the order of `num_groups`). -/
def scoresLoop (x : Vec) : List (String × Mat) → Vec → List (String × Vec) → Nat →
    Vec × List (String × Vec)
  | [], ranks, scores, _ => (ranks, scores)
  | (t, Gt) :: rest, ranks, scores, idx =>
    let nt := numCols Gt
    let slice := (x.drop idx).take nt
    scoresLoop x rest (vadd ranks (mvmul Gt slice)) (scores ++ [(t, slice)]) (idx + nt)

/-- `SpringRank_groups` (lines 84-176): assemble, dispatch on the solver
name (`spsolve` uses the returned solution; `bicgstab` and `lsqr` use
`output[0]`, discarding the status flag; any other string falls back to
`bicgstab`), then slice scores and rebuild the combined ranks. -/
def SR_groups (S : Solvers) (A : Mat) (G : List (String × Mat)) (reg : List (String × ℚ))
    (solver : String) : Option (Vec × List (String × Vec)) :=
  match SR_groups_assemble A G reg with
  | none => none
  | some Kd =>
    let x : Vec :=
      if solver = "spsolve" then S.spsolve Kd.1 Kd.2
      else if solver = "bicgstab" then (S.bicgstab Kd.1 Kd.2).1
      else if solver = "lsqr" then (S.lsqr Kd.1 Kd.2).1
      else (S.bicgstab Kd.1 Kd.2).1
    let N := numRows A
    let indiv := x.take N
    some (scoresLoop x G indiv [("individual", indiv)] N)

/-- The spec's reconstruction of grouped ranks: individual scores plus
the sum over group types of `G_t @ scores_t`, all read back from the
returned scores mapping. -/
def ranksFromScores (G : List (String × Mat)) (scores : List (String × Vec)) : Vec :=
  G.foldl (fun r p => vadd r (mvmul p.2 ((scores.lookup p.1).getD [])))
    ((scores.lookup "individual").getD [])

/-- The non-"individual" entries of `reg_coeff`, in iteration order. -/
def regGroups (reg : List (String × ℚ)) : List (String × ℚ) :=
  reg.filter (fun p => p.1 != "individual")

/-- Size of the grouped block system: `N + sum of M_t`. -/
def groupsSize (N : Nat) (G : List (String × Mat)) : Nat :=
  N + ((G.map (fun p => numCols p.2)).sum)

/-- Start offset of group block `k` in the grouped system. -/
def colOffset (N : Nat) (G : List (String × Mat)) (k : Nat) : Nat :=
  N + (((G.take k).map (fun p => numCols p.2)).sum)

/-- `foldl vstack`: the shape of the row-accumulation loop. -/
def vcat (base : Mat) (l : List Mat) : Mat := l.foldl vstack base

/-- `foldl hstack`: the shape of the column-accumulation loops. -/
def hcat (base : Mat) (l : List Mat) : Mat := l.foldl hstack base

def rowsTotal (l : List Mat) : Nat := (l.map numRows).sum

def colsTotal (l : List Mat) : Nat := (l.map numCols).sum

/- ## Generative samplers -/

/-- Abstract numerical environment: `np.exp`, `np.sqrt` and the Poisson
sampler have no exact rational counterpart, so they are parameters.
`poisson lam u` is the count drawn for mean `lam` from the underlying
source value `u`. -/
structure NumEnv where
  fexp : ℚ → ℚ
  fsqrt : ℚ → ℚ
  poisson : ℚ → ℚ → Nat

/-- A stream of source values with a position: the state of a numpy
random generator.  Each draw consumes one value. -/
structure RStream where
  seq : Nat → ℚ
  pos : Nat

/-- `normal(mean, scale, n)`: modelled location-scale,
`mean + scale * u` on `n` consecutive source values. -/
def normalDraws (st : RStream) (mean scale : ℚ) (n : Nat) : Vec × RStream :=
  (mkVec n (fun i => mean + scale * st.seq (st.pos + i)), ⟨st.seq, st.pos + n⟩)

/-- `np.random.randint(0, n)` on one source value (in `[0, n)` for
`0 < n`, as in numpy). -/
def randintDraw (u : ℚ) (n : Nat) : Nat := u.num.toNat % n

/-- Row-major ordered pairs `(i, j)` with `i, j < N`: the `for i: for j:`
double loop of both samplers. -/
def allPairs (N : Nat) : List (Nat × Nat) :=
  ((List.range N).map (fun i => (List.range N).map (fun j => (i, j)))).flatten

/-- The ordered pairs the ungrouped sampler draws an edge for
(lines 215-219): all pairs with `i ≠ j`, in row-major order. -/
def offDiagPairs (N : Nat) : List (Nat × Nat) :=
  (allPairs N).filter (fun p => p.1 != p.2)

/-- The ordered pairs the grouped sampler draws an edge for
(lines 300-306): the diagonal is skipped unless `allow_self_loops`. -/
def groupedPairs (N : Nat) (allow : Bool) : List (Nat × Nat) :=
  (allPairs N).filter (fun p => allow || (p.1 != p.2))

/-- `scaled_energy[i,j] = exp(-beta * (0.5 * (r_i - r_j - l1)^2))`
(lines 206-211 with `l1 = 1` hard-coded; lines 288-292 with `l1`). -/
def scaledEnergy (env : NumEnv) (beta l1 : ℚ) (ranks : Vec) (N : Nat) : Mat :=
  mkMat N N (fun i j =>
    env.fexp (-beta * (1/2 * (vget ranks i - vget ranks j - l1) *
      (vget ranks i - vget ranks j - l1))))

/-- `Z`: the sum of all `N * N` scaled energies, diagonal included
(lines 204-211 and 287-292). -/
def energyZ (S : Mat) (N : Nat) : ℚ := sumR N (fun i => sumR N (fun j => mget S i j))

/-- One Poisson draw per listed pair with mean `c * S[i,j]`, each
consuming one global source value, in list order. -/
def poissonDraws (env : NumEnv) (c : ℚ) (S : Mat) :
    List (Nat × Nat) → RStream → List ((Nat × Nat) × Nat) × RStream
  | [], st => ([], st)
  | p :: rest, st =>
    let v := env.poisson (c * mget S p.1 p.2) (st.seq st.pos)
    let r := poissonDraws env c S rest ⟨st.seq, st.pos + 1⟩
    (((p.1, p.2), v) :: r.1, r.2)

def edgeLookup : List ((Nat × Nat) × Nat) → Nat → Nat → Nat
  | [], _, _ => 0
  | ((a, b), v) :: rest, i, j => if a = i ∧ b = j then v else edgeLookup rest i j

/-- `SpringRank_planted_network` (lines 179-224).  All randomness comes
from the global numpy generator, modelled by the stream `g`.  Returns
`(A, ranks)` when `return_ranks`, else `A` alone. -/
def SR_planted_network (env : NumEnv) (g : RStream) (N : Nat) (beta alpha kavg el0 : ℚ)
    (return_ranks : Bool) : Mat ⊕ (Mat × Vec) :=
  let variance := 1 / env.fsqrt (alpha * beta)
  let rg := normalDraws g el0 variance N
  let ranks := rg.1
  let S := scaledEnergy env beta 1 ranks N
  let Z := energyZ S N
  let c := kavg * (N : ℚ) / Z
  let draws := (poissonDraws env c S (offDiagPairs N) rg.2).1
  let A := mkMat N N (fun i j => (edgeLookup draws i j : ℚ))
  if return_ranks then Sum.inr (A, ranks) else Sum.inl A

/-- The sum of the Poisson means `c * scaled_energy[i,j]` over the
ordered pairs the ungrouped sampler actually draws edges for. -/
def plantedMeansTotal (env : NumEnv) (g : RStream) (N : Nat) (beta alpha kavg el0 : ℚ) : ℚ :=
  let variance := 1 / env.fsqrt (alpha * beta)
  let ranks := (normalDraws g el0 variance N).1
  let S := scaledEnergy env beta 1 ranks N
  let c := kavg * (N : ℚ) / energyZ S N
  ((offDiagPairs N).map (fun p => c * mget S p.1 p.2)).sum

/-- A directed weighted graph: node list with score attribute, edge list
`(i, j, weight)` for the draws with positive weight. -/
structure DiGraphM where
  nodes : List (Nat × ℚ)
  edges : List (Nat × Nat × Nat)
deriving DecidableEq

/-- Group assignment `np.random.randint(0, nt, N)` from the GLOBAL
generator, turned into the `N x nt` indicator matrix (lines 270-274). -/
def groupAssign (g : RStream) (N nt : Nat) : Mat × RStream :=
  (mkMat N nt (fun j c => if c = randintDraw (g.seq (g.pos + j)) nt then 1 else 0),
   ⟨g.seq, g.pos + N⟩)

/-- The per-group loop of the grouped sampler (lines 267-283): group
assignments from the GLOBAL generator `g`, group scores from the
SUPPLIED generator `prng`; a missing key in `alpha`/`l0` is a Python
`KeyError` (`none`). -/
def groupGenLoop (env : NumEnv) (beta : ℚ) (alphas l0s : List (String × ℚ)) (N : Nat) :
    List (String × Nat) → List (String × Mat) → List (String × Vec) → Vec →
    RStream → RStream →
    Option (List (String × Mat) × List (String × Vec) × Vec × RStream × RStream)
  | [], G, scores, ranks, prng, g => some (G, scores, ranks, prng, g)
  | (t, nt) :: rest, G, scores, ranks, prng, g =>
    match alphas.lookup t, l0s.lookup t with
    | some alphat, some l0t =>
      let ag := groupAssign g N nt
      let sc := normalDraws prng l0t (1 / env.fsqrt (alphat * beta)) nt
      groupGenLoop env beta alphas l0s N rest (G ++ [(t, ag.1)]) (scores ++ [(t, sc.1)])
        (vadd ranks (mvmul ag.1 sc.1)) sc.2 ag.2
    | _, _ => none

/-- `SpringRank_planted_network_groups` (lines 226-313).  `prng` is the
SUPPLIED generator (used only for the normal score draws, as in the
source); `g` is the GLOBAL numpy generator (consumed by
`np.random.randint` at line 271 and `np.random.poisson` at line 306).
Returns the 4-tuple when `return_ranks`, else the pair; `none` models a
Python `KeyError` on the `alpha`/`l0` mappings. -/
def SR_planted_network_groups (env : NumEnv) (prng g : RStream) (N : Nat)
    (numGroups : List (String × Nat)) (beta : ℚ) (alphas : List (String × ℚ)) (kavg : ℚ)
    (l0s : List (String × ℚ)) (l1 : ℚ) (allowSelfLoops return_ranks : Bool) :
    Option ((DiGraphM × List (String × Mat)) ⊕
      (DiGraphM × List (String × Mat) × List (String × Vec) × Vec)) :=
  match alphas.lookup "individual", l0s.lookup "individual" with
  | some alphaI, some l0I =>
    let sc := normalDraws prng l0I (1 / env.fsqrt (alphaI * beta)) N
    match groupGenLoop env beta alphas l0s N numGroups [] [("individual", sc.1)] sc.1 sc.2 g with
    | none => none
    | some r =>
      let G := r.1
      let scores := r.2.1
      let ranks := r.2.2.1
      let g1 := r.2.2.2.2
      let S := scaledEnergy env beta l1 ranks N
      let Z := energyZ S N
      let c := kavg * (N : ℚ) / Z
      let draws := (poissonDraws env c S (groupedPairs N allowSelfLoops) g1).1
      let nodes := (List.range N).map (fun i => (i, vget ranks i))
      let edges := (draws.filter (fun e => decide (0 < e.2))).map (fun e => (e.1.1, e.1.2, e.2))
      let net : DiGraphM := ⟨nodes, edges⟩
      if return_ranks then some (Sum.inr (net, G, scores, ranks))
      else some (Sum.inl (net, G))
  | _, _ => none

/- ## Concrete instances used by counterexamples and witnesses -/

def Aex : Mat := [[0, 1], [0, 0]]

def Gex1 : List (String × Mat) := [("a", [[1], [1]])]

def regInd1 : List (String × ℚ) := [("individual", 1)]

def regEx1 : List (String × ℚ) := [("individual", 1), ("a", 1)]

def Gex2 : List (String × Mat) := [("a", [[1], [1]]), ("b", [[1, 0], [0, 1]])]

def regEx2 : List (String × ℚ) := [("individual", 1), ("b", 2), ("a", 1)]

def envEx : NumEnv := ⟨fun _ => 1, fun _ => 1, fun _ _ => 0⟩

def zeroStream : RStream := ⟨fun _ => 0, 0⟩

def natStream : Nat → RStream := fun p => ⟨fun n => (n : ℚ), p⟩

def failSolvers : Solvers :=
  { spsolve := fun _ v => v
    bicgstab := fun _ v => (v, 5)
    lsqr := fun _ v => (v, 0) }

def numGroupsEx : List (String × Nat) := [("a", 2)]

def alphasEx : List (String × ℚ) := [("individual", 1), ("a", 1)]

def l0sEx : List (String × ℚ) := [("individual", 0), ("a", 0)]

def alphasNeg : List (String × ℚ) := [("individual", 1), ("a", -1)]

def Aone : Mat := [[0]]

def Gone : List (String × Mat) := [("a", [[1]])]

def regOne : List (String × ℚ) := [("individual", 1), ("a", 2)]

/-- One column block of a grouped row (the body of the inner loop at
lines 137-141): `G_t.T @ block`, plus `lambda_t * eye(n_t)` when the
block key equals `t`. -/
def groupRowBlock (Gt : Mat) (t : String) (lam : ℚ) (sb : String × Mat) : Mat :=
  if sb.1 = t then madd (mmul (mT Gt) sb.2) (msmul lam (meye (numCols Gt)))
  else mmul (mT Gt) sb.2

/-- The `k`-th group matrix of `G` (iteration order of `G`). -/
def Gmat (G : List (String × Mat)) (k : Nat) : Mat := (G.getD k ("", [])).2

/-- Number of groups `M_k` of the `k`-th group type. -/
def Gwidth (G : List (String × Mat)) (k : Nat) : Nat := numCols (Gmat G k)

/-- The `k`-th regularization coefficient among the non-"individual"
entries of `reg_coeff`, in its iteration order. -/
def regLam (reg : List (String × ℚ)) (k : Nat) : ℚ := ((regGroups reg).getD k ("", 0)).2

/-- The top band of the grouped operator: `L + lambda_individual * I`
hstacked with every column block, in the iteration order of `G`. -/
def c5K0 (A : Mat) (G : List (String × Mat)) (lamInd : ℚ) : Mat :=
  hcat (madd (laplacian A) (msmul lamInd (meye (numRows A))))
    ((groupBlocks (laplacian A) G).map Prod.snd)

/-- The stacked row blocks of the grouped operator, in the iteration
order of `reg_coeff`. -/
def c5rows (A : Mat) (G : List (String × Mat)) (reg : List (String × ℚ)) : List Mat :=
  (regGroups reg).map
    (fun p => groupRow (laplacian A) (groupBlocks (laplacian A) G)
      p.1 ((G.lookup p.1).getD []) p.2)

/-- The grouped operator `K` in assembled normal form. -/
def c5K (A : Mat) (G : List (String × Mat)) (reg : List (String × ℚ)) (lamInd : ℚ) : Mat :=
  vcat (c5K0 A G lamInd) (c5rows A G reg)


/- ## Basic access lemmas -/

theorem length_mkVec (n : Nat) (f : Nat → ℚ) : (mkVec n f).length = n := by
  simp [mkVec]

theorem vget_mkVec (n : Nat) (f : Nat → ℚ) (i : Nat) :
    vget (mkVec n f) i = if i < n then f i else 0 := by
  by_cases h : i < n
  · simp [vget, mkVec, List.getD_eq_getElem?_getD, List.getElem?_map, List.getElem?_range h, h]
  · have hnone : (mkVec n f)[i]? = none :=
      List.getElem?_eq_none (by simpa [length_mkVec] using Nat.le_of_not_lt h)
    simp [vget, List.getD_eq_getElem?_getD, hnone, h]

theorem mget_mkMat (n m : Nat) (f : Nat → Nat → ℚ) (i j : Nat) :
    mget (mkMat n m f) i j = if i < n ∧ j < m then f i j else 0 := by
  by_cases h : i < n
  · have hrow : (mkMat n m f).getD i [] = mkVec m (f i) := by
      simp [mkMat, List.getD_eq_getElem?_getD, List.getElem?_map, List.getElem?_range h]
    have : mget (mkMat n m f) i j = vget (mkVec m (f i)) j := by
      unfold mget vget
      rw [hrow]
    rw [this, vget_mkVec]
    by_cases hj : j < m <;> simp [h, hj]
  · have hnone : (mkMat n m f)[i]? = none := by
      apply List.getElem?_eq_none
      simpa [mkMat] using Nat.le_of_not_lt h
    have hrow : (mkMat n m f).getD i [] = [] := by
      simp [List.getD_eq_getElem?_getD, hnone]
    unfold mget
    rw [hrow]
    simp [h]

theorem numRows_mkMat (n m : Nat) (f : Nat → Nat → ℚ) : numRows (mkMat n m f) = n := by
  simp [numRows, mkMat, mkVec]

theorem numCols_mkMat (n m : Nat) (f : Nat → Nat → ℚ) (hn : 0 < n) :
    numCols (mkMat n m f) = m := by
  unfold numCols mkMat
  obtain ⟨k, hk⟩ : ∃ k, n = k + 1 := ⟨n - 1, by omega⟩
  subst hk
  simp [List.range_succ_eq_map, length_mkVec]

theorem rectM_mkMat (n m : Nat) (f : Nat → Nat → ℚ) : RectM (mkMat n m f) n m := by
  constructor
  · simp [mkMat]
  · intro r hr
    simp only [mkMat, List.mem_map] at hr
    obtain ⟨i, _, rfl⟩ := hr
    exact length_mkVec m (f i)

theorem numCols_of_rectM {M : Mat} {n m : Nat} (h : RectM M n m) (hn : 0 < n) :
    numCols M = m := by
  obtain ⟨hlen, hrows⟩ := h
  unfold numCols
  cases M with
  | nil => simp at hlen; omega
  | cons r t => exact hrows r (by simp)

theorem numRows_of_rectM {M : Mat} {n m : Nat} (h : RectM M n m) : numRows M = n := h.1

theorem length_rowSums (M : Mat) : (rowSums M).length = M.length := by
  simp [rowSums]

theorem length_colSums (M : Mat) : (colSums M).length = numCols M := by
  simp [colSums, length_mkVec]

theorem length_vadd (u v : Vec) : (vadd u v).length = u.length := by
  simp [vadd, length_mkVec]

theorem length_vsub (u v : Vec) : (vsub u v).length = u.length := by
  simp [vsub, length_mkVec]

theorem mkVec_congr (n : Nat) (f g : Nat → ℚ) (h : ∀ i, i < n → f i = g i) :
    mkVec n f = mkVec n g := by
  unfold mkVec
  apply List.map_congr_left
  intro i hi
  exact h i (List.mem_range.mp hi)

theorem sumR_eq_finset (n : Nat) (f : Nat → ℚ) :
    sumR n f = ∑ i ∈ Finset.range n, f i := by
  induction n with
  | zero => simp [sumR]
  | succ k ih =>
    unfold sumR at ih ⊢
    rw [List.range_succ, List.map_append, List.sum_append, Finset.sum_range_succ, ih]
    simp

theorem sumR_congr (n : Nat) (f g : Nat → ℚ) (h : ∀ i, i < n → f i = g i) :
    sumR n f = sumR n g := by
  rw [sumR_eq_finset, sumR_eq_finset]
  exact Finset.sum_congr rfl (fun i hi => h i (Finset.mem_range.mp hi))

/- ## Entry and dimension lemmas for the matrix operations -/

theorem mget_mT (A : Mat) (i j : Nat) :
    mget (mT A) i j = if i < numCols A ∧ j < numRows A then mget A j i else 0 :=
  mget_mkMat _ _ _ i j

theorem numRows_mT (A : Mat) : numRows (mT A) = numCols A := numRows_mkMat _ _ _

theorem numCols_mT (A : Mat) (h : 0 < numCols A) : numCols (mT A) = numRows A :=
  numCols_mkMat _ _ _ h

theorem mget_madd (A B : Mat) (i j : Nat) :
    mget (madd A B) i j =
      if i < numRows A ∧ j < numCols A then mget A i j + mget B i j else 0 :=
  mget_mkMat _ _ _ i j

theorem numRows_madd (A B : Mat) : numRows (madd A B) = numRows A := numRows_mkMat _ _ _

theorem numCols_madd (A B : Mat) (h : 0 < numRows A) : numCols (madd A B) = numCols A :=
  numCols_mkMat _ _ _ h

theorem mget_msub (A B : Mat) (i j : Nat) :
    mget (msub A B) i j =
      if i < numRows A ∧ j < numCols A then mget A i j - mget B i j else 0 :=
  mget_mkMat _ _ _ i j

theorem numRows_msub (A B : Mat) : numRows (msub A B) = numRows A := numRows_mkMat _ _ _

theorem numCols_msub (A B : Mat) (h : 0 < numRows A) : numCols (msub A B) = numCols A :=
  numCols_mkMat _ _ _ h

theorem mget_msmul (c : ℚ) (A : Mat) (i j : Nat) :
    mget (msmul c A) i j = if i < numRows A ∧ j < numCols A then c * mget A i j else 0 :=
  mget_mkMat _ _ _ i j

theorem numRows_msmul (c : ℚ) (A : Mat) : numRows (msmul c A) = numRows A := numRows_mkMat _ _ _

theorem numCols_msmul (c : ℚ) (A : Mat) (h : 0 < numRows A) :
    numCols (msmul c A) = numCols A := numCols_mkMat _ _ _ h

theorem mget_meye (n : Nat) (i j : Nat) :
    mget (meye n) i j = if i < n ∧ j < n then (if i = j then 1 else 0) else 0 :=
  mget_mkMat _ _ _ i j

theorem numRows_meye (n : Nat) : numRows (meye n) = n := numRows_mkMat _ _ _

theorem numCols_meye (n : Nat) (h : 0 < n) : numCols (meye n) = n := numCols_mkMat _ _ _ h

theorem mget_mdiag (v : Vec) (i j : Nat) :
    mget (mdiag v) i j =
      if i < v.length ∧ j < v.length then (if i = j then vget v i else 0) else 0 :=
  mget_mkMat _ _ _ i j

theorem numRows_mdiag (v : Vec) : numRows (mdiag v) = v.length := numRows_mkMat _ _ _

theorem numCols_mdiag (v : Vec) (h : 0 < v.length) : numCols (mdiag v) = v.length :=
  numCols_mkMat _ _ _ h

theorem mget_spdiagsM (v : Vec) (n : Nat) (i j : Nat) :
    mget (spdiagsM v n) i j =
      if i < n ∧ j < n then (if i = j then vget v i else 0) else 0 :=
  mget_mkMat _ _ _ i j

theorem mget_mmul (A B : Mat) (i k : Nat) :
    mget (mmul A B) i k =
      if i < numRows A ∧ k < numCols B then
        sumR (numCols A) (fun j => mget A i j * mget B j k)
      else 0 :=
  mget_mkMat _ _ _ i k

theorem numRows_mmul (A B : Mat) : numRows (mmul A B) = numRows A := numRows_mkMat _ _ _

theorem numCols_mmul (A B : Mat) (h : 0 < numRows A) : numCols (mmul A B) = numCols B :=
  numCols_mkMat _ _ _ h

theorem vget_mvmul (A : Mat) (v : Vec) (i : Nat) :
    vget (mvmul A v) i =
      if i < numRows A then sumR (numCols A) (fun j => mget A i j * vget v j) else 0 :=
  vget_mkVec _ _ i

theorem length_mvmul (A : Mat) (v : Vec) : (mvmul A v).length = numRows A :=
  length_mkVec _ _

theorem mget_hstack (A B : Mat) (i j : Nat) :
    mget (hstack A B) i j =
      if i < numRows A ∧ j < numCols A + numCols B then
        (if j < numCols A then mget A i j else mget B i (j - numCols A))
      else 0 :=
  mget_mkMat _ _ _ i j

theorem numRows_hstack (A B : Mat) : numRows (hstack A B) = numRows A := numRows_mkMat _ _ _

theorem numCols_hstack (A B : Mat) (h : 0 < numRows A) :
    numCols (hstack A B) = numCols A + numCols B := numCols_mkMat _ _ _ h

theorem mget_vstack (A B : Mat) (i j : Nat) :
    mget (vstack A B) i j =
      if i < numRows A + numRows B ∧ j < numCols A then
        (if i < numRows A then mget A i j else mget B (i - numRows A) j)
      else 0 :=
  mget_mkMat _ _ _ i j

theorem numRows_vstack (A B : Mat) : numRows (vstack A B) = numRows A + numRows B :=
  numRows_mkMat _ _ _

theorem numCols_vstack (A B : Mat) (h : 0 < numRows A + numRows B) :
    numCols (vstack A B) = numCols A := numCols_mkMat _ _ _ h

theorem mget_mresize (A : Mat) (n m : Nat) (i j : Nat) :
    mget (mresize A n m) i j = if i < n ∧ j < m then mget A i j else 0 :=
  mget_mkMat _ _ _ i j

theorem mget_mset (A : Mat) (r c : Nat) (x : ℚ) (i j : Nat) :
    mget (mset A r c x) i j =
      if i < numRows A ∧ j < numCols A then
        (if i = r ∧ j = c then x else mget A i j)
      else 0 :=
  mget_mkMat _ _ _ i j

theorem vget_vadd (u v : Vec) (i : Nat) (h : i < u.length) :
    vget (vadd u v) i = vget u i + vget v i := by
  rw [vadd, vget_mkVec]
  simp [h]

theorem vget_vsub (u v : Vec) (i : Nat) (h : i < u.length) :
    vget (vsub u v) i = vget u i - vget v i := by
  rw [vsub, vget_mkVec]
  simp [h]

theorem vget_replicate (n : Nat) (a : ℚ) (i : Nat) (h : i < n) :
    vget (List.replicate n a) i = a := by
  unfold vget
  rw [List.getD_eq_getElem?_getD, List.getElem?_replicate]
  simp [h]

/- ## Laplacian lemmas -/

theorem degree_length {A : Mat} {N : Nat} (hA : RectM A N N) :
    (vadd (rowSums A) (colSums A)).length = N := by
  rw [length_vadd, length_rowSums, hA.1]

theorem mget_laplacian {A : Mat} {N : Nat} (hA : RectM A N N) (hN : 0 < N) (i j : Nat) :
    mget (laplacian A) i j =
      if i < N ∧ j < N then
        (if i = j then vget (vadd (rowSums A) (colSums A)) i else 0) -
          (mget A i j + mget A j i)
      else 0 := by
  have hrows : numRows A = N := hA.1
  have hcols : numCols A = N := numCols_of_rectM hA hN
  have hv : (vadd (rowSums A) (colSums A)).length = N := degree_length hA
  have h0 : 0 < (vadd (rowSums A) (colSums A)).length := by omega
  unfold laplacian
  rw [mget_msub, numRows_mdiag, hv, numCols_mdiag _ h0, hv,
    mget_mdiag, hv, mget_madd, hrows, hcols, mget_mT, hrows, hcols]
  by_cases hij : i < N ∧ j < N
  · obtain ⟨hi, hj⟩ := hij
    simp only [hi, hj, and_self, if_true]
  · simp only [hij, if_false]

theorem numRows_laplacian {A : Mat} {N : Nat} (hA : RectM A N N) :
    numRows (laplacian A) = N := by
  unfold laplacian
  rw [numRows_msub, numRows_mdiag, degree_length hA]

theorem numCols_laplacian {A : Mat} {N : Nat} (hA : RectM A N N) (hN : 0 < N) :
    numCols (laplacian A) = N := by
  have hv : (vadd (rowSums A) (colSums A)).length = N := degree_length hA
  have h0 : 0 < (vadd (rowSums A) (colSums A)).length := by omega
  have h1 : 0 < numRows (mdiag (vadd (rowSums A) (colSums A))) := by
    rw [numRows_mdiag]; omega
  unfold laplacian
  rw [numCols_msub _ _ h1, numCols_mdiag _ h0, hv]

theorem laplacian_symm {A : Mat} {N : Nat} (hA : RectM A N N) (hN : 0 < N) (i j : Nat) :
    mget (laplacian A) i j = mget (laplacian A) j i := by
  rw [mget_laplacian hA hN, mget_laplacian hA hN]
  by_cases hij : i < N ∧ j < N
  · obtain ⟨hi, hj⟩ := hij
    simp only [hi, hj, and_self, if_true]
    by_cases heq : i = j
    · subst heq; rfl
    · have heq2 : ¬ j = i := fun hc => heq hc.symm
      simp only [heq, heq2, if_false]
      ring
  · have hji : ¬ (j < N ∧ i < N) := fun hc => hij ⟨hc.2, hc.1⟩
    simp only [hij, hji, if_false]

/- ## C1: the regularized system -/

/-- C1 counterexample: for `A = [[0,1],[0,0]]` and `alpha = 1`, the
right-hand side handed to the regularized solve is `alpha + (k_out - k_in)
= [2, 0]` (observed through a probe solver that returns its right-hand
side), which differs from `k_out - k_in = [1, -1]`; so the claim that the
right-hand side equals `k_out - k_in` is false. -/
theorem C1_rhs_counterexample :
    SpringRank probeSolvers Aex 1 = regRhs Aex 1 ∧
    regRhs Aex 1 = [2, 0] ∧
    vsub (rowSums Aex) (colSums Aex) = [1, -1] ∧
    regRhs Aex 1 ≠ vsub (rowSums Aex) (colSums Aex) := by
  have h1 : regRhs Aex 1 = [2, 0] := by
    norm_num [regRhs, vsub, rowSums, colSums, Aex, mkVec, vget, numCols, List.range_succ]
  have h2 : vsub (rowSums Aex) (colSums Aex) = [1, -1] := by
    norm_num [vsub, rowSums, colSums, Aex, mkVec, vget, numCols, List.range_succ]
  refine ⟨rfl, h1, h2, ?_⟩
  rw [h1, h2]
  intro hc
  exact absurd (List.head_eq_of_cons_eq hc) (by norm_num)

/-- C1 (amended): for every `alpha > 0`, the regularized branch of
`SpringRank` hands the solver the operator `alpha * I + L` with
`L = diag(k_in + k_out) - A - A.T`, and the right-hand side
`(k_out - k_in) + alpha * ones(N)` — not `k_out - k_in`. -/
theorem C1_regularized_system (S : Solvers) (A : Mat) (alpha : ℚ) (h : 0 < alpha) :
    SpringRank S A alpha =
      (S.bicgstab (madd (msmul alpha (meye (numRows A))) (laplacian A))
        (vadd (vsub (rowSums A) (colSums A)) (List.replicate (numRows A) alpha))).1 := by
  have hne : alpha ≠ 0 := ne_of_gt h
  unfold SpringRank
  rw [if_neg hne]
  have hlen : (vsub (rowSums A) (colSums A)).length = numRows A := by
    rw [length_vsub, length_rowSums]; rfl
  have hrhs : regRhs A alpha =
      vadd (vsub (rowSums A) (colSums A)) (List.replicate (numRows A) alpha) := by
    unfold regRhs vadd
    apply mkVec_congr
    intro i hi
    rw [vget_replicate _ _ _ (by omega : i < numRows A)]
    ring
  rw [show regOperator A alpha =
      madd (msmul alpha (meye (numRows A))) (laplacian A) from rfl, hrhs]

/-- Witness for C1's amended theorem at `A = [[0,1],[0,0]]`, `alpha = 1`. -/
theorem C1_regularized_system_witness :
    SpringRank probeSolvers Aex 1 =
      (probeSolvers.bicgstab (madd (msmul 1 (meye (numRows Aex))) (laplacian Aex))
        (vadd (vsub (rowSums Aex) (colSums Aex)) (List.replicate (numRows Aex) 1))).1 :=
  C1_regularized_system probeSolvers Aex 1 (by norm_num)

/- ## C6: the unconstrained (Lagrange) system -/

theorem numRows_mset (A : Mat) (r c : Nat) (x : ℚ) : numRows (mset A r c x) = numRows A :=
  numRows_mkMat _ _ _

theorem numCols_mset (A : Mat) (r c : Nat) (x : ℚ) (h : 0 < numRows A) :
    numCols (mset A r c x) = numCols A := numCols_mkMat _ _ _ h

theorem numRows_mresize (A : Mat) (n m : Nat) : numRows (mresize A n m) = n :=
  numRows_mkMat _ _ _

theorem numCols_mresize (A : Mat) (n m : Nat) (h : 0 < n) : numCols (mresize A n m) = m :=
  numCols_mkMat _ _ _ h

/-- Full entry characterization of the `csr_SpringRank` operator. -/
theorem mget_csrOperator {A : Mat} {N : Nat} (hA : RectM A N N) (hN : 0 < N) (i j : Nat) :
    mget (csrOperator A) i j =
      if i < N + 1 ∧ j < N + 1 then
        (if i = 0 ∧ j = N then 1
         else if i = N ∧ j = 0 then 1
         else if i < N ∧ j < N then
           (if i = j then vget (vadd (rowSums A) (colSums A)) i else 0) -
             mget A i j - mget A j i
         else 0)
      else 0 := by
  have hrows : numRows A = N := hA.1
  have hcols : numCols A = N := numCols_of_rectM hA hN
  have hv : (vadd (rowSums A) (colSums A)).length = N := degree_length hA
  simp only [csrOperator]
  rw [hrows]
  set v := vadd (rowSums A) (colSums A) with hvdef
  set R := mresize (msub (msub (spdiagsM v N) A) (mT A)) (N + 1) (N + 1) with hR
  have dR1 : numRows R = N + 1 := numRows_mresize _ _ _
  have dR2 : numCols R = N + 1 := numCols_mresize _ _ _ (by omega)
  have dS1 : numRows (mset R N 0 1) = N + 1 := by rw [numRows_mset, dR1]
  have dS2 : numCols (mset R N 0 1) = N + 1 := by
    rw [numCols_mset _ _ _ _ (by omega : 0 < numRows R), dR2]
  rw [mget_mset, dS1, dS2]
  by_cases hb : i < N + 1 ∧ j < N + 1
  · rw [if_pos hb, if_pos hb]
    by_cases h0N : i = 0 ∧ j = N
    · rw [if_pos h0N, if_pos h0N]
    · rw [if_neg h0N, if_neg h0N, mget_mset, dR1, dR2, if_pos hb]
      by_cases hN0 : i = N ∧ j = 0
      · rw [if_pos hN0, if_pos hN0]
      · rw [if_neg hN0, if_neg hN0, hR, mget_mresize, if_pos hb]
        have e1 : numRows (msub (spdiagsM v N) A) = N := by
          rw [numRows_msub]; exact numRows_mkMat _ _ _
        have e2 : numCols (msub (spdiagsM v N) A) = N := by
          rw [numCols_msub]
          · exact numCols_mkMat _ _ _ hN
          · rw [show numRows (spdiagsM v N) = N from numRows_mkMat _ _ _]; omega
        rw [mget_msub, e1, e2]
        by_cases hij : i < N ∧ j < N
        · rw [if_pos hij, if_pos hij, mget_msub,
            show numRows (spdiagsM v N) = N from numRows_mkMat _ _ _,
            show numCols (spdiagsM v N) = N from numCols_mkMat _ _ _ hN,
            if_pos hij, mget_spdiagsM, if_pos hij, mget_mT, hrows, hcols, if_pos hij]
        · rw [if_neg hij, if_neg hij]
  · rw [if_neg hb, if_neg hb]

/-- C6: the unconstrained (`alpha = 0`) computation builds the
`(N+1) x (N+1)` operator whose top-left block is the Laplacian, whose
only other nonzero entries are the 1s at `(N, 0)` and `(0, N)`, pairs it
with right-hand side `[k_out - k_in; 0]`, and returns the first `N`
entries of the solver's `(N+1)`-vector iterate. -/
theorem C6_lagrange_system (S : Solvers) (A : Mat) (N : Nat)
    (hA : RectM A N N) (hN : 0 < N)
    (hlen : ((S.bicgstab (csrOperator A) (csrRhs A)).1).length = N + 1) :
    (∀ i j, i < N → j < N → mget (csrOperator A) i j = mget (laplacian A) i j) ∧
    mget (csrOperator A) N 0 = 1 ∧
    mget (csrOperator A) 0 N = 1 ∧
    (∀ i j, i ≤ N → j ≤ N → (i = N ∨ j = N) →
      ¬(i = N ∧ j = 0) → ¬(i = 0 ∧ j = N) → mget (csrOperator A) i j = 0) ∧
    (∀ i, i < N → vget (csrRhs A) i = vget (rowSums A) i - vget (colSums A) i) ∧
    vget (csrRhs A) N = 0 ∧
    csr_SpringRank S A = ((S.bicgstab (csrOperator A) (csrRhs A)).1).take N := by
  have hrows : numRows A = N := hA.1
  have hsub : (vsub (rowSums A) (colSums A)).length = N := by
    rw [length_vsub, length_rowSums, hA.1]
  refine ⟨?_, ?_, ?_, ?_, ?_, ?_, ?_⟩
  · intro i j hi hj
    have hb : i < N + 1 ∧ j < N + 1 := ⟨by omega, by omega⟩
    have hij : i < N ∧ j < N := ⟨hi, hj⟩
    rw [mget_csrOperator hA hN, mget_laplacian hA hN, if_pos hb, if_pos hij,
      if_neg (by omega : ¬(i = 0 ∧ j = N)), if_neg (by omega : ¬(i = N ∧ j = 0)),
      if_pos hij]
    ring
  · have hb : N < N + 1 ∧ 0 < N + 1 := ⟨by omega, by omega⟩
    have he : N = N ∧ (0 : Nat) = 0 := ⟨rfl, rfl⟩
    rw [mget_csrOperator hA hN, if_pos hb,
      if_neg (by omega : ¬(N = 0 ∧ (0 : Nat) = N)), if_pos he]
  · have hb : 0 < N + 1 ∧ N < N + 1 := ⟨by omega, by omega⟩
    have he : (0 : Nat) = 0 ∧ N = N := ⟨rfl, rfl⟩
    rw [mget_csrOperator hA hN, if_pos hb, if_pos he]
  · intro i j hi hj hedge hne1 hne2
    have hb : i < N + 1 ∧ j < N + 1 := ⟨by omega, by omega⟩
    rw [mget_csrOperator hA hN, if_pos hb,
      if_neg hne2, if_neg hne1, if_neg (by omega : ¬(i < N ∧ j < N))]
  · intro i hi
    unfold csrRhs vget
    rw [List.getD_append _ _ _ _ (by omega)]
    exact vget_vsub _ _ _ (by rw [length_rowSums, hA.1]; omega)
  · unfold csrRhs vget
    rw [List.getD_append_right _ _ _ _ (by omega), hsub]
    simp
  · unfold csr_SpringRank
    rw [List.dropLast_eq_take, hlen]
    norm_num

/-- Witness for C6 at `A = [[0,1],[0,0]]` with the probe solver. -/
theorem C6_lagrange_system_witness :
    (∀ i j, i < 2 → j < 2 → mget (csrOperator Aex) i j = mget (laplacian Aex) i j) ∧
    mget (csrOperator Aex) 2 0 = 1 ∧
    mget (csrOperator Aex) 0 2 = 1 ∧
    (∀ i j, i ≤ 2 → j ≤ 2 → (i = 2 ∨ j = 2) →
      ¬(i = 2 ∧ j = 0) → ¬(i = 0 ∧ j = 2) → mget (csrOperator Aex) i j = 0) ∧
    (∀ i, i < 2 → vget (csrRhs Aex) i = vget (rowSums Aex) i - vget (colSums Aex) i) ∧
    vget (csrRhs Aex) 2 = 0 ∧
    csr_SpringRank probeSolvers Aex =
      ((probeSolvers.bicgstab (csrOperator Aex) (csrRhs Aex)).1).take 2 :=
  C6_lagrange_system probeSolvers Aex 2 (by decide) (by decide)
    (by simp [csrRhs, probeSolvers, length_vsub, length_rowSums, Aex])

/- ## C2: the convergence flag of the iterative solver -/

theorem lem_csr_solver_agree (S1 S2 : Solvers)
    (hb : ∀ M v, (S1.bicgstab M v).1 = (S2.bicgstab M v).1) (A : Mat) :
    csr_SpringRank S1 A = csr_SpringRank S2 A := by
  unfold csr_SpringRank
  rw [hb]

theorem lem_spring_solver_agree (S1 S2 : Solvers)
    (hb : ∀ M v, (S1.bicgstab M v).1 = (S2.bicgstab M v).1) (A : Mat) (alpha : ℚ) :
    SpringRank S1 A alpha = SpringRank S2 A alpha := by
  unfold SpringRank
  by_cases h : alpha = 0
  · rw [if_pos h, if_pos h]
    exact lem_csr_solver_agree S1 S2 hb A
  · rw [if_neg h, if_neg h, hb]

theorem lem_groups_solver_agree (S1 S2 : Solvers)
    (hb : ∀ M v, (S1.bicgstab M v).1 = (S2.bicgstab M v).1)
    (A : Mat) (G : List (String × Mat)) (reg : List (String × ℚ)) :
    SR_groups S1 A G reg "bicgstab" = SR_groups S2 A G reg "bicgstab" := by
  unfold SR_groups
  cases hassm : SR_groups_assemble A G reg with
  | none => rfl
  | some Kd =>
    simp [hassm, hb]

/-- C2 counterexample: a solver bundle whose bicgstab reports failure
(`info = 5`) and one reporting success (`info = 0`) but with the same
iterate produce byte-identical outputs from every rank computation: the
convergence flag is discarded, so no failure signal reaches the caller. -/
theorem C2_silent_nonconvergence_counterexample :
    csr_SpringRank failSolvers Aex = csr_SpringRank probeSolvers Aex ∧
    SpringRank failSolvers Aex 1 = SpringRank probeSolvers Aex 1 ∧
    SR_groups failSolvers Aex Gex1 regEx1 "bicgstab" =
      SR_groups probeSolvers Aex Gex1 regEx1 "bicgstab" ∧
    (failSolvers.bicgstab (csrOperator Aex) (csrRhs Aex)).2 ≠ 0 := by
  have hb : ∀ M v, (failSolvers.bicgstab M v).1 = (probeSolvers.bicgstab M v).1 :=
    fun M v => rfl
  exact ⟨lem_csr_solver_agree _ _ hb Aex, lem_spring_solver_agree _ _ hb Aex 1,
    lem_groups_solver_agree _ _ hb Aex Gex1 regEx1, by decide⟩

/-- C2 (amended): every rank computation keeps only the first component
of the iterative solver's output (`output[0]`) and discards the
convergence flag: two solvers agreeing on the iterate produce identical
results whatever their flags, so non-convergence is silently treated as
success and no failure signal is returned to the caller. -/
theorem C2_convergence_flag_discarded (S1 S2 : Solvers)
    (hb : ∀ M v, (S1.bicgstab M v).1 = (S2.bicgstab M v).1) :
    (∀ A, csr_SpringRank S1 A = csr_SpringRank S2 A) ∧
    (∀ A alpha, SpringRank S1 A alpha = SpringRank S2 A alpha) ∧
    (∀ A G reg, SR_groups S1 A G reg "bicgstab" = SR_groups S2 A G reg "bicgstab") :=
  ⟨fun A => lem_csr_solver_agree S1 S2 hb A,
   fun A alpha => lem_spring_solver_agree S1 S2 hb A alpha,
   fun A G reg => lem_groups_solver_agree S1 S2 hb A G reg⟩

/-- Witness for C2's amended theorem at concrete solvers and input. -/
theorem C2_convergence_flag_discarded_witness :
    csr_SpringRank failSolvers Aex = csr_SpringRank probeSolvers Aex :=
  (C2_convergence_flag_discarded failSolvers probeSolvers (fun _ _ => rfl)).1 Aex

/- ## C4: handling of missing `reg_coeff` keys -/

theorem groupsLoop_isSome (L : Mat) (kdiff : Vec) (G blocks : List (String × Mat)) :
    ∀ (regl : List (String × ℚ)) (K : Mat) (d : Vec),
    (∀ p ∈ regl, p.1 = "individual" ∨ (G.lookup p.1).isSome = true) →
    (groupsLoop L kdiff G blocks regl K d).isSome = true := by
  intro regl
  induction regl with
  | nil => intro K d _; rfl
  | cons hd tl ih =>
    intro K d h
    obtain ⟨t, lam⟩ := hd
    simp only [groupsLoop]
    by_cases ht : t = "individual"
    · rw [if_pos ht]
      exact ih K d (fun p hp => h p (List.mem_cons_of_mem _ hp))
    · rw [if_neg ht]
      have hmem : (t, lam).1 = "individual" ∨ (G.lookup (t, lam).1).isSome = true :=
        h (t, lam) (List.mem_cons_self _ _)
      rcases hmem with hc | hc
      · exact absurd hc ht
      · obtain ⟨Gt, hGt⟩ := Option.isSome_iff_exists.mp hc
        rw [hGt]
        exact ih _ _ (fun p hp => h p (List.mem_cons_of_mem _ hp))

/-- C4 counterexample: with `reg_coeff = {"individual": 1}` missing the
group key "a" present in `G`, the grouped computation does NOT fail: the
loop over `reg_coeff` silently skips the group, the assembled operator is
the non-square `2 x 3` top block alone, and the call proceeds to the
solver and returns a result. -/
theorem C4_missing_key_counterexample :
    regInd1.lookup "a" = none ∧
    (Gex1.lookup "a").isSome = true ∧
    (SR_groups_assemble Aex Gex1 regInd1).map (fun p => (numRows p.1, numCols p.1)) =
      some (2, 3) ∧
    (SR_groups probeSolvers Aex Gex1 regInd1 "lsqr").isSome = true := by
  refine ⟨rfl, rfl, ?_, rfl⟩
  decide

/-- C4 (amended): a missing "individual" key makes the call fail (a
`KeyError` during assembly, before any solve); but a `reg_coeff` covering
"individual" whose other keys all appear in `G` never fails, whether or
not it covers every key of `G` — a group key missing from `reg_coeff` is
silently skipped and the call still assembles a system and solves it. -/
theorem C4_reg_key_handling :
    (∀ (S : Solvers) A G reg solver, reg.lookup "individual" = none →
      SR_groups S A G reg solver = none) ∧
    (∀ (S : Solvers) A G reg solver, (reg.lookup "individual").isSome = true →
      (∀ p ∈ reg, p.1 = "individual" ∨ (G.lookup p.1).isSome = true) →
      (SR_groups S A G reg solver).isSome = true) := by
  constructor
  · intro S A G reg solver hnone
    unfold SR_groups SR_groups_assemble
    rw [hnone]
  · intro S A G reg solver hindiv hcov
    obtain ⟨lam, hlam⟩ := Option.isSome_iff_exists.mp hindiv
    have hassm : (SR_groups_assemble A G reg).isSome = true := by
      unfold SR_groups_assemble
      simp only [hlam]
      obtain ⟨Kd, hKd⟩ := Option.isSome_iff_exists.mp
        (groupsLoop_isSome _ _ G _ reg _ _ hcov)
      rw [hKd]
      rfl
    obtain ⟨Kd, hKd⟩ := Option.isSome_iff_exists.mp hassm
    unfold SR_groups
    rw [hKd]
    rfl

/-- Witness for C4's amended theorem: the exact missing-group-key input
of the counterexample is accepted and solved. -/
theorem C4_reg_key_handling_witness :
    (SR_groups probeSolvers Aex Gex1 regInd1 "lsqr").isSome = true :=
  C4_reg_key_handling.2 probeSolvers Aex Gex1 regInd1 "lsqr" (by decide)
    (by
      intro p hp
      fin_cases hp <;> simp)

/- ## C7: the grouped rank decomposition -/

theorem lem_lookup_append_some {β : Type} (l1 l2 : List (String × β)) (k : String) (v : β)
    (h : l1.lookup k = some v) : (l1 ++ l2).lookup k = some v := by
  induction l1 with
  | nil => simp [List.lookup] at h
  | cons hd tl ih =>
    obtain ⟨a, b⟩ := hd
    rw [List.cons_append]
    by_cases hk : (k == a) = true
    · simp only [List.lookup, hk] at h ⊢
      exact h
    · have hk2 : (k == a) = false := by simpa using hk
      simp only [List.lookup, hk2] at h ⊢
      exact ih h

theorem lem_lookup_append_none {β : Type} (l1 l2 : List (String × β)) (k : String)
    (h : l1.lookup k = none) : (l1 ++ l2).lookup k = l2.lookup k := by
  induction l1 with
  | nil => rfl
  | cons hd tl ih =>
    obtain ⟨a, b⟩ := hd
    rw [List.cons_append]
    by_cases hk : (k == a) = true
    · simp only [List.lookup, hk] at h
      exact Option.noConfusion h
    · have hk2 : (k == a) = false := by simpa using hk
      simp only [List.lookup, hk2] at h ⊢
      exact ih h

theorem scoresLoop_invariant (x : Vec) :
    ∀ (Gl : List (String × Mat)) (r0 : Vec) (s0 : List (String × Vec)) (idx : Nat),
    (Gl.map Prod.fst).Nodup →
    (∀ p ∈ Gl, s0.lookup p.1 = none) →
    (∀ k v, s0.lookup k = some v → (scoresLoop x Gl r0 s0 idx).2.lookup k = some v) ∧
    (∀ p ∈ Gl, ((scoresLoop x Gl r0 s0 idx).2.lookup p.1).isSome = true) ∧
    (scoresLoop x Gl r0 s0 idx).1 =
      Gl.foldl
        (fun r p => vadd r (mvmul p.2 (((scoresLoop x Gl r0 s0 idx).2.lookup p.1).getD [])))
        r0 := by
  intro Gl
  induction Gl with
  | nil =>
    intro r0 s0 idx _ _
    exact ⟨fun k v h => h, by simp, rfl⟩
  | cons hd tl ih =>
    intro r0 s0 idx hnodup hnone
    obtain ⟨t, Gt⟩ := hd
    have hnotin : t ∉ tl.map Prod.fst := (List.nodup_cons.mp hnodup).1
    have hnodup2 : (tl.map Prod.fst).Nodup := (List.nodup_cons.mp hnodup).2
    simp only [scoresLoop]
    set slice := (x.drop idx).take (numCols Gt) with hslice
    set s1 := s0 ++ [(t, slice)] with hs1
    have hnone1 : ∀ p ∈ tl, s1.lookup p.1 = none := by
      intro p hp
      have h1 : s0.lookup p.1 = none := hnone p (List.mem_cons_of_mem _ hp)
      have hne : p.1 ≠ t := by
        intro hc
        exact hnotin (hc ▸ List.mem_map_of_mem Prod.fst hp)
      rw [hs1, lem_lookup_append_none _ _ _ h1]
      have hbe : (p.1 == t) = false := by simpa using hne
      simp [List.lookup, hbe]
    obtain ⟨ihPres, ihSome, ihRank⟩ :=
      ih (vadd r0 (mvmul Gt slice)) s1 (idx + numCols Gt) hnodup2 hnone1
    have hst : s1.lookup t = some slice := by
      rw [hs1, lem_lookup_append_none _ _ _ (hnone (t, Gt) (List.mem_cons_self _ _))]
      simp [List.lookup]
    have hfinal_t :
        ((scoresLoop x tl (vadd r0 (mvmul Gt slice)) s1 (idx + numCols Gt)).2.lookup t)
          = some slice := ihPres t slice hst
    refine ⟨?_, ?_, ?_⟩
    · intro k v hk
      apply ihPres
      rw [hs1, lem_lookup_append_some _ _ _ _ hk]
    · intro p hp
      rcases List.mem_cons.mp hp with hc | hc
      · rw [hc]
        rw [hfinal_t]
        rfl
      · exact ihSome p hc
    · rw [List.foldl_cons, hfinal_t]
      simpa using ihRank

/-- C7: on every input where the grouped computation returns, the scores
mapping contains "individual" and every key of `G`, and the returned
ranks equal individual scores plus the sum over group types of
`G_t @ scores_t`, reconstructed from the returned scores. -/
theorem C7_rank_decomposition (S : Solvers) (A : Mat) (G : List (String × Mat))
    (reg : List (String × ℚ)) (solver : String) (ranks : Vec)
    (scores : List (String × Vec))
    (hnodup : (G.map Prod.fst).Nodup) (hind : "individual" ∉ G.map Prod.fst)
    (hrun : SR_groups S A G reg solver = some (ranks, scores)) :
    (scores.lookup "individual").isSome = true ∧
    (∀ p ∈ G, (scores.lookup p.1).isSome = true) ∧
    ranks = ranksFromScores G scores := by
  unfold SR_groups at hrun
  cases hassm : SR_groups_assemble A G reg with
  | none => rw [hassm] at hrun; exact absurd hrun (by simp)
  | some Kd =>
    rw [hassm] at hrun
    simp only [] at hrun
    set x : Vec :=
      (if solver = "spsolve" then S.spsolve Kd.1 Kd.2
       else if solver = "bicgstab" then (S.bicgstab Kd.1 Kd.2).1
       else if solver = "lsqr" then (S.lsqr Kd.1 Kd.2).1
       else (S.bicgstab Kd.1 Kd.2).1) with hx
    set indiv := x.take (numRows A) with hindiv
    have hrun2 : scoresLoop x G indiv [("individual", indiv)] (numRows A) = (ranks, scores) := by
      exact Option.some.inj hrun
    have hnone0 : ∀ p ∈ G, ([("individual", indiv)] : List (String × Vec)).lookup p.1 = none := by
      intro p hp
      have hne : p.1 ≠ "individual" := by
        intro hc
        exact hind (hc ▸ List.mem_map_of_mem Prod.fst hp)
      have hbe : (p.1 == "individual") = false := by simpa using hne
      simp [List.lookup, hbe]
    obtain ⟨hPres, hSome, hRank⟩ :=
      scoresLoop_invariant x G indiv [("individual", indiv)] (numRows A) hnodup hnone0
    rw [hrun2] at hPres hSome hRank
    dsimp only at hPres hSome hRank
    have hlook : scores.lookup "individual" = some indiv := by
      apply hPres
      simp [List.lookup]
    refine ⟨by rw [hlook]; rfl, hSome, ?_⟩
    rw [hRank]
    unfold ranksFromScores
    rw [hlook]
    rfl

theorem lem_C7_witness_run :
    SR_groups probeSolvers Aone Gone regOne "bicgstab" =
      some ([0], [("individual", [0]), ("a", [0])]) := by
  have hassm : SR_groups_assemble Aone Gone regOne = some ([[1, 0], [0, 2]], [0, 0]) := by
    unfold SR_groups_assemble
    simp only [List.lookup, regOne, groupsLoop, Gone]
    simp only [reduceIte, String.reduceBEq, String.reduceEq]
    norm_num [groupRow, groupBlocks, laplacian, msub, madd, mdiag, mT, msmul, meye, mmul,
      mvmul, hstack, vstack, mkMat, mkVec, mget, vget, numRows, numCols, rowSums, colSums,
      vadd, vsub, sumR, List.range_succ, Aone]
  unfold SR_groups
  rw [hassm]
  simp only [scoresLoop, Gone, probeSolvers]
  simp only [reduceIte, String.reduceBEq, String.reduceEq]
  norm_num [mvmul, mT, mkMat, mkVec, mget, vget, numRows, numCols, vadd, sumR,
    List.range_succ, Aone]

/-- Witness for C7 on the concrete 1-node instance. -/
theorem C7_rank_decomposition_witness :
    ((([("individual", [(0 : ℚ)]), ("a", [0])] : List (String × Vec)).lookup
        "individual").isSome = true) ∧
    (∀ p ∈ Gone, (([("individual", [(0 : ℚ)]), ("a", [0])] :
        List (String × Vec)).lookup p.1).isSome = true) ∧
    [(0 : ℚ)] = ranksFromScores Gone [("individual", [0]), ("a", [0])] :=
  C7_rank_decomposition probeSolvers Aone Gone regOne "bicgstab" [0]
    [("individual", [0]), ("a", [0])] (by decide) (by decide) lem_C7_witness_run

/- ## Sum lemmas for the samplers -/

theorem list_sum_map_add {α : Type} (l : List α) (f g : α → ℚ) :
    (l.map (fun x => f x + g x)).sum = (l.map f).sum + (l.map g).sum := by
  induction l with
  | nil => simp
  | cons h t ih =>
    simp only [List.map_cons, List.sum_cons, ih]
    ring

theorem list_sum_map_mul_left {α : Type} (l : List α) (c : ℚ) (f : α → ℚ) :
    (l.map (fun x => c * f x)).sum = c * (l.map f).sum := by
  induction l with
  | nil => simp
  | cons h t ih =>
    simp only [List.map_cons, List.sum_cons, ih]
    ring

theorem list_sum_filter_map {α : Type} (l : List α) (q : α → Bool) (f : α → ℚ) :
    ((l.filter q).map f).sum = (l.map (fun x => if q x then f x else 0)).sum := by
  induction l with
  | nil => rfl
  | cons h t ih =>
    by_cases hq : q h
    · rw [List.filter_cons_of_pos hq, List.map_cons, List.sum_cons, ih, List.map_cons,
        List.sum_cons, if_pos hq]
    · rw [List.filter_cons_of_neg (by simpa using hq), List.map_cons, List.sum_cons, ih,
        if_neg hq]
      ring

theorem sum_allPairs (N : Nat) (f : Nat → Nat → ℚ) :
    ((allPairs N).map (fun p => f p.1 p.2)).sum = sumR N (fun i => sumR N (fun j => f i j)) := by
  unfold allPairs
  rw [List.map_flatten, List.sum_flatten, List.map_map, List.map_map]
  unfold sumR
  congr 1
  apply List.map_congr_left
  intro i _
  simp only [Function.comp_apply, Function.comp_def, List.map_map]

theorem sumR_pos (n : Nat) (f : Nat → ℚ) (hn : 0 < n) (hf : ∀ i, i < n → 0 < f i) :
    0 < sumR n f := by
  rw [sumR_eq_finset]
  apply Finset.sum_pos
  · intro i hi
    exact hf i (Finset.mem_range.mp hi)
  · exact ⟨0, Finset.mem_range.mpr hn⟩

theorem mget_scaledEnergy (env : NumEnv) (beta l1 : ℚ) (ranks : Vec) (N : Nat)
    (i j : Nat) (hi : i < N) (hj : j < N) :
    mget (scaledEnergy env beta l1 ranks N) i j =
      env.fexp (-beta * (1/2 * (vget ranks i - vget ranks j - l1) *
        (vget ranks i - vget ranks j - l1))) := by
  unfold scaledEnergy
  rw [mget_mkMat, if_pos ⟨hi, hj⟩]

theorem energyZ_pos (env : NumEnv) (beta l1 : ℚ) (ranks : Vec) (N : Nat)
    (hexp : ∀ x, 0 < env.fexp x) (hN : 0 < N) :
    0 < energyZ (scaledEnergy env beta l1 ranks N) N := by
  unfold energyZ
  apply sumR_pos _ _ hN
  intro i hi
  apply sumR_pos _ _ hN
  intro j hj
  rw [mget_scaledEnergy _ _ _ _ _ _ _ hi hj]
  exact hexp _

theorem list_sum_map_sub {α : Type} (l : List α) (f g : α → ℚ) :
    (l.map (fun x => f x - g x)).sum = (l.map f).sum - (l.map g).sum := by
  induction l with
  | nil => simp
  | cons h t ih =>
    simp only [List.map_cons, List.sum_cons, ih]
    ring

theorem lem_sampled_means (env : NumEnv) (beta l1 : ℚ) (ranks : Vec) (N : Nat) (kavg : ℚ)
    (hexp : ∀ x, 0 < env.fexp x) (hN : 0 < N) (hK : 0 < kavg) :
    ((groupedPairs N true).map
        (fun p => kavg * (N : ℚ) / energyZ (scaledEnergy env beta l1 ranks N) N *
          mget (scaledEnergy env beta l1 ranks N) p.1 p.2)).sum = kavg * (N : ℚ) ∧
    ((offDiagPairs N).map
        (fun p => kavg * (N : ℚ) / energyZ (scaledEnergy env beta l1 ranks N) N *
          mget (scaledEnergy env beta l1 ranks N) p.1 p.2)).sum =
      kavg * (N : ℚ) - sumR N (fun i =>
        kavg * (N : ℚ) / energyZ (scaledEnergy env beta l1 ranks N) N *
          mget (scaledEnergy env beta l1 ranks N) i i) ∧
    0 < sumR N (fun i =>
        kavg * (N : ℚ) / energyZ (scaledEnergy env beta l1 ranks N) N *
          mget (scaledEnergy env beta l1 ranks N) i i) := by
  set S := scaledEnergy env beta l1 ranks N with hS
  set Z := energyZ S N with hZdef
  set c := kavg * (N : ℚ) / Z with hc
  have hZ : 0 < Z := energyZ_pos env beta l1 ranks N hexp hN
  have hcpos : 0 < c := by
    apply div_pos _ hZ
    exact mul_pos hK (by exact_mod_cast hN)
  have htotal : ((allPairs N).map (fun p => c * mget S p.1 p.2)).sum = kavg * (N : ℚ) := by
    rw [sum_allPairs N (fun i j => c * mget S i j)]
    have : sumR N (fun i => sumR N (fun j => c * mget S i j)) = c * Z := by
      rw [hZdef]
      unfold energyZ
      simp only [sumR_eq_finset]
      rw [Finset.mul_sum]
      apply Finset.sum_congr rfl
      intro i _
      rw [Finset.mul_sum]
    rw [this, hc, div_mul_cancel₀ _ (ne_of_gt hZ)]
  have hdiag : ((allPairs N).map (fun p => if p.1 = p.2 then c * mget S p.1 p.2 else 0)).sum
      = sumR N (fun i => c * mget S i i) := by
    rw [sum_allPairs N (fun i j => if i = j then c * mget S i j else 0)]
    apply sumR_congr
    intro i hi
    rw [sumR_eq_finset]
    rw [Finset.sum_ite_eq (Finset.range N) i (fun j => c * mget S i j)]
    rw [if_pos (Finset.mem_range.mpr hi)]
  have hoff : ((offDiagPairs N).map (fun p => c * mget S p.1 p.2)).sum
      = kavg * (N : ℚ) - sumR N (fun i => c * mget S i i) := by
    unfold offDiagPairs
    rw [list_sum_filter_map]
    have hpt : ∀ p : Nat × Nat,
        (if (p.1 != p.2) = true then c * mget S p.1 p.2 else 0) =
          c * mget S p.1 p.2 - (if p.1 = p.2 then c * mget S p.1 p.2 else 0) := by
      intro p
      by_cases hp : p.1 = p.2
      · simp [hp]
      · simp [hp]
    calc ((allPairs N).map (fun p => if (p.1 != p.2) = true then c * mget S p.1 p.2 else 0)).sum
        = ((allPairs N).map (fun p =>
            c * mget S p.1 p.2 - (if p.1 = p.2 then c * mget S p.1 p.2 else 0))).sum := by
          apply congrArg
          apply List.map_congr_left
          intro p _
          exact hpt p
      _ = kavg * (N : ℚ) - sumR N (fun i => c * mget S i i) := by
          rw [list_sum_map_sub, htotal, hdiag]
  have hdiagpos : 0 < sumR N (fun i => c * mget S i i) := by
    apply sumR_pos _ _ hN
    intro i hi
    apply mul_pos hcpos
    rw [hS, mget_scaledEnergy _ _ _ _ _ _ _ hi hi]
    exact hexp _
  refine ⟨?_, hoff, hdiagpos⟩
  have hgp : groupedPairs N true = allPairs N := by
    simp [groupedPairs]
  rw [hgp, htotal]

/- ## C3: expected total edge count of the samplers -/

/-- C3 counterexample: for `N = 1`, `beta = 1`, `K = 1`, the ungrouped
sampler draws no edges at all (the only ordered pair is the skipped
diagonal), so the sum of the Poisson means over the pairs actually
sampled is `0`, while `K * N = 1`. -/
theorem C3_sampled_means_counterexample :
    plantedMeansTotal envEx zeroStream 1 1 1 1 0 = 0 ∧ (0 : ℚ) ≠ 1 * (1 : ℚ) := by
  constructor
  · have hpairs : offDiagPairs 1 = [] := by decide
    unfold plantedMeansTotal
    rw [hpairs]
    rfl
  · norm_num

/-- C3 (amended): the sum of the Poisson means `c * w_ij` over ALL `N^2`
ordered pairs equals `K * N`; the pairs actually sampled exclude the
diagonal (ungrouped sampler, and grouped sampler without self loops), so
the sum of the means over the sampled pairs equals `K * N` minus the
strictly positive diagonal contribution — strictly less than `K * N`.
Only the grouped sampler with `allow_self_loops = True` samples a set of
pairs whose means sum to exactly `K * N`. -/
theorem C3_expected_edge_means (env : NumEnv) (beta l1 : ℚ) (ranks : Vec) (N : Nat)
    (kavg : ℚ) (hexp : ∀ x, 0 < env.fexp x) (hN : 0 < N) (hK : 0 < kavg) :
    ((groupedPairs N true).map
        (fun p => kavg * (N : ℚ) / energyZ (scaledEnergy env beta l1 ranks N) N *
          mget (scaledEnergy env beta l1 ranks N) p.1 p.2)).sum = kavg * (N : ℚ) ∧
    ((offDiagPairs N).map
        (fun p => kavg * (N : ℚ) / energyZ (scaledEnergy env beta l1 ranks N) N *
          mget (scaledEnergy env beta l1 ranks N) p.1 p.2)).sum < kavg * (N : ℚ) ∧
    (∀ g alpha el0, plantedMeansTotal env g N beta alpha kavg el0 < kavg * (N : ℚ)) := by
  obtain ⟨h1, h2, h3⟩ := lem_sampled_means env beta l1 ranks N kavg hexp hN hK
  refine ⟨h1, by rw [h2]; linarith, ?_⟩
  intro g alpha el0
  obtain ⟨g1, g2, g3⟩ := lem_sampled_means env beta 1
    ((normalDraws g el0 (1 / env.fsqrt (alpha * beta)) N).1) N kavg hexp hN hK
  have hdef : plantedMeansTotal env g N beta alpha kavg el0 =
      ((offDiagPairs N).map
        (fun p => kavg * (N : ℚ) /
            energyZ (scaledEnergy env beta 1
              ((normalDraws g el0 (1 / env.fsqrt (alpha * beta)) N).1) N) N *
          mget (scaledEnergy env beta 1
            ((normalDraws g el0 (1 / env.fsqrt (alpha * beta)) N).1) N) p.1 p.2)).sum := rfl
  rw [hdef, g2]
  linarith

/-- Witness for C3's amended theorem at a concrete instance. -/
theorem C3_expected_edge_means_witness :
    ((groupedPairs 1 true).map
        (fun p => 1 * ((1 : Nat) : ℚ) / energyZ (scaledEnergy envEx 1 1 [0] 1) 1 *
          mget (scaledEnergy envEx 1 1 [0] 1) p.1 p.2)).sum = 1 * ((1 : Nat) : ℚ) ∧
    ((offDiagPairs 1).map
        (fun p => 1 * ((1 : Nat) : ℚ) / energyZ (scaledEnergy envEx 1 1 [0] 1) 1 *
          mget (scaledEnergy envEx 1 1 [0] 1) p.1 p.2)).sum < 1 * ((1 : Nat) : ℚ) ∧
    (∀ g alpha el0, plantedMeansTotal envEx g 1 1 alpha 1 el0 < 1 * ((1 : Nat) : ℚ)) :=
  C3_expected_edge_means envEx 1 1 [0] 1 1
    (fun x => by norm_num [envEx]) (by norm_num) (by norm_num)

/- ## C8: no validation of beta / alpha in the samplers -/

theorem groupGenLoop_isSome (env : NumEnv) (beta : ℚ) (alphas l0s : List (String × ℚ))
    (N : Nat) :
    ∀ (numG : List (String × Nat)) (G : List (String × Mat)) (scores : List (String × Vec))
      (ranks : Vec) (prng g : RStream),
    (∀ p ∈ numG, (alphas.lookup p.1).isSome = true ∧ (l0s.lookup p.1).isSome = true) →
    (groupGenLoop env beta alphas l0s N numG G scores ranks prng g).isSome = true := by
  intro numG
  induction numG with
  | nil => intro G scores ranks prng g _; rfl
  | cons hd tl ih =>
    intro G scores ranks prng g h
    obtain ⟨t, nt⟩ := hd
    obtain ⟨ha, hl⟩ := h (t, nt) (List.mem_cons_self _ _)
    obtain ⟨av, hav⟩ := Option.isSome_iff_exists.mp ha
    obtain ⟨lv, hlv⟩ := Option.isSome_iff_exists.mp hl
    simp only [groupGenLoop, hav, hlv]
    exact ih _ _ _ _ _ (fun p hp => h p (List.mem_cons_of_mem _ hp))

/-- C8 counterexample: called with `beta = -1 < 0` (and with a negative
group `alpha` in the grouped case), the samplers do not signal any
configuration error: they draw the scores and return a sampled network. -/
theorem C8_no_validation_counterexample :
    SR_planted_network envEx zeroStream 1 (-1) 1 1 0 true = Sum.inr ([[0]], [0]) ∧
    (SR_planted_network_groups envEx zeroStream zeroStream 1 numGroupsEx 1 alphasNeg 1
        l0sEx 1 false true).isSome = true := by
  constructor
  · have hpairs : offDiagPairs 1 = [] := by decide
    unfold SR_planted_network
    rw [hpairs]
    norm_num [normalDraws, poissonDraws, scaledEnergy, energyZ, edgeLookup, mkMat, mkVec,
      mget, vget, sumR, List.range_succ, envEx, zeroStream]
  · unfold SR_planted_network_groups
    simp only [List.lookup, alphasNeg, l0sEx]
    simp only [reduceIte, String.reduceBEq, String.reduceEq]
    obtain ⟨r, hr⟩ := Option.isSome_iff_exists.mp
      (groupGenLoop_isSome envEx 1 [("individual", 1), ("a", -1)]
        [("individual", 0), ("a", 0)] 1 numGroupsEx []
        [("individual", (normalDraws zeroStream 0 (1 / envEx.fsqrt (1 * 1)) 1).1)]
        ((normalDraws zeroStream 0 (1 / envEx.fsqrt (1 * 1)) 1).1)
        ((normalDraws zeroStream 0 (1 / envEx.fsqrt (1 * 1)) 1).2) zeroStream
        (by decide))
    rw [hr]
    rfl

/-- C8 (amended): neither sampler validates `beta` or `alpha`.  For any
non-positive `beta` or `alpha` the ungrouped sampler still draws its `N`
scores with scale `1 / sqrt(alpha * beta)` and returns a sampled network;
the grouped sampler likewise returns a sampled network whenever its key
lookups succeed, whatever the signs of the `alpha` values.  The only
failures are missing mapping keys, not sign checks. -/
theorem C8_validation_absent (env : NumEnv) (g : RStream) (N : Nat)
    (beta alpha kavg el0 : ℚ) (h : beta ≤ 0 ∨ alpha ≤ 0) :
    (∃ A, SR_planted_network env g N beta alpha kavg el0 true =
      Sum.inr (A, (normalDraws g el0 (1 / env.fsqrt (alpha * beta)) N).1)) ∧
    (∀ (prng : RStream) (numG : List (String × Nat)) (alphas l0s : List (String × ℚ))
      (l1 : ℚ) (allow : Bool),
      (alphas.lookup "individual").isSome = true →
      (l0s.lookup "individual").isSome = true →
      (∀ p ∈ numG, (alphas.lookup p.1).isSome = true ∧ (l0s.lookup p.1).isSome = true) →
      (SR_planted_network_groups env prng g N numG beta alphas kavg l0s l1
        allow true).isSome = true) := by
  constructor
  · exact ⟨_, rfl⟩
  · intro prng numG alphas l0s l1 allow hai hli hcov
    obtain ⟨av, hav⟩ := Option.isSome_iff_exists.mp hai
    obtain ⟨lv, hlv⟩ := Option.isSome_iff_exists.mp hli
    unfold SR_planted_network_groups
    simp only [hav, hlv]
    obtain ⟨r, hr⟩ := Option.isSome_iff_exists.mp
      (groupGenLoop_isSome env beta alphas l0s N numG _ _ _ _ _ hcov)
    rw [hr]
    rfl

/-- Witness for C8's amended theorem at `beta = -1`. -/
theorem C8_validation_absent_witness :
    (∃ A, SR_planted_network envEx zeroStream 1 (-1) 1 1 0 true =
      Sum.inr (A, (normalDraws zeroStream 0 (1 / envEx.fsqrt (1 * -1)) 1).1)) ∧
    (∀ (prng : RStream) (numG : List (String × Nat)) (alphas l0s : List (String × ℚ))
      (l1 : ℚ) (allow : Bool),
      (alphas.lookup "individual").isSome = true →
      (l0s.lookup "individual").isSome = true →
      (∀ p ∈ numG, (alphas.lookup p.1).isSome = true ∧ (l0s.lookup p.1).isSome = true) →
      (SR_planted_network_groups envEx prng zeroStream 1 numG (-1) alphas 1 l0s l1
        allow true).isSome = true) :=
  C8_validation_absent envEx zeroStream 1 (-1) 1 1 0 (Or.inl (by norm_num))

/- ## C9: dependence on the global numpy generator -/

theorem lem_grouped_run0 :
    SR_planted_network_groups envEx zeroStream (natStream 0) 1 numGroupsEx 1 alphasEx 1
      l0sEx 1 false true =
    some (Sum.inr (⟨[(0, 0)], []⟩, [("a", [[1, 0]])],
      [("individual", [0]), ("a", [0, 0])], [0])) := by
  unfold SR_planted_network_groups
  simp only [List.lookup, alphasEx, l0sEx, numGroupsEx, groupGenLoop, groupAssign,
    normalDraws, randintDraw]
  simp only [reduceIte, String.reduceBEq, String.reduceEq]
  norm_num [scaledEnergy, energyZ, poissonDraws, groupedPairs, allPairs, edgeLookup,
    mkMat, mkVec, mget, vget, mvmul, vadd, mT, numRows, numCols, sumR, List.range_succ,
    natStream, zeroStream, envEx]

theorem lem_grouped_run1 :
    SR_planted_network_groups envEx zeroStream (natStream 1) 1 numGroupsEx 1 alphasEx 1
      l0sEx 1 false true =
    some (Sum.inr (⟨[(0, 0)], []⟩, [("a", [[0, 1]])],
      [("individual", [0]), ("a", [0, 0])], [0])) := by
  unfold SR_planted_network_groups
  simp only [List.lookup, alphasEx, l0sEx, numGroupsEx, groupGenLoop, groupAssign,
    normalDraws, randintDraw]
  simp only [reduceIte, String.reduceBEq, String.reduceEq]
  norm_num [scaledEnergy, energyZ, poissonDraws, groupedPairs, allPairs, edgeLookup,
    mkMat, mkVec, mget, vget, mvmul, vadd, mT, numRows, numCols, sumR, List.range_succ,
    natStream, zeroStream, envEx]

/-- C9: two calls of the grouped sampler with identical arguments and the
SAME supplied random source, differing only in the state of the GLOBAL
numpy generator (as left behind by a previous call), return different
group-assignment matrices: the group assignments (and Poisson edge draws)
come from `np.random`, not from the supplied `prng`, so shared mutable
state does cross calls. -/
theorem C9_global_state_dependence :
    SR_planted_network_groups envEx zeroStream (natStream 0) 1 numGroupsEx 1 alphasEx 1
      l0sEx 1 false true ≠
    SR_planted_network_groups envEx zeroStream (natStream 1) 1 numGroupsEx 1 alphasEx 1
      l0sEx 1 false true := by
  intro hcontra
  rw [lem_grouped_run0, lem_grouped_run1] at hcontra
  norm_num at hcontra

/- ## C10: the shape of the sampler return values -/

/-- C10: the ungrouped sampler returns `(A, ranks)` when `return_ranks`
and `A` alone otherwise, with the same `A`; the grouped sampler returns
the 4-tuple `(network, G, scores, ranks)` exactly when `return_ranks` and
the pair `(network, G)` (same network and `G`) otherwise — scores are
never returned without ranks. -/
theorem C10_return_shapes :
    (∀ (env : NumEnv) (g : RStream) (N : Nat) (beta alpha kavg el0 : ℚ), ∃ A r,
      SR_planted_network env g N beta alpha kavg el0 true = Sum.inr (A, r) ∧
      SR_planted_network env g N beta alpha kavg el0 false = Sum.inl A) ∧
    (∀ (env : NumEnv) (prng g : RStream) (N : Nat) (numG : List (String × Nat))
      (beta : ℚ) (alphas : List (String × ℚ)) (kavg : ℚ) (l0s : List (String × ℚ))
      (l1 : ℚ) (allow : Bool) res,
      SR_planted_network_groups env prng g N numG beta alphas kavg l0s l1 allow true =
        some res →
      ∃ net Gm sc r, res = Sum.inr (net, Gm, sc, r) ∧
        SR_planted_network_groups env prng g N numG beta alphas kavg l0s l1 allow false =
          some (Sum.inl (net, Gm))) ∧
    (∀ (env : NumEnv) (prng g : RStream) (N : Nat) (numG : List (String × Nat))
      (beta : ℚ) (alphas : List (String × ℚ)) (kavg : ℚ) (l0s : List (String × ℚ))
      (l1 : ℚ) (allow : Bool) res,
      SR_planted_network_groups env prng g N numG beta alphas kavg l0s l1 allow false =
        some res →
      ∃ net Gm, res = Sum.inl (net, Gm)) := by
  refine ⟨?_, ?_, ?_⟩
  · intro env g N beta alpha kavg el0
    exact ⟨_, _, rfl, rfl⟩
  · intro env prng g N numG beta alphas kavg l0s l1 allow res hrun
    unfold SR_planted_network_groups at hrun ⊢
    cases hai : alphas.lookup "individual" with
    | none =>
      simp only [hai] at hrun
      exact Option.noConfusion hrun
    | some av =>
      cases hli : l0s.lookup "individual" with
      | none =>
        simp only [hai, hli] at hrun
        exact Option.noConfusion hrun
      | some lv =>
        simp only [hai, hli, reduceIte] at hrun ⊢
        cases hloop : groupGenLoop env beta alphas l0s N numG []
            [("individual", (normalDraws prng lv (1 / env.fsqrt (av * beta)) N).1)]
            ((normalDraws prng lv (1 / env.fsqrt (av * beta)) N).1)
            ((normalDraws prng lv (1 / env.fsqrt (av * beta)) N).2) g with
        | none =>
          simp only [hloop] at hrun
          exact Option.noConfusion hrun
        | some r =>
          simp only [hloop] at hrun ⊢
          refine ⟨_, _, _, _, (Option.some.inj hrun).symm, rfl⟩
  · intro env prng g N numG beta alphas kavg l0s l1 allow res hrun
    unfold SR_planted_network_groups at hrun
    cases hai : alphas.lookup "individual" with
    | none =>
      simp only [hai] at hrun
      exact Option.noConfusion hrun
    | some av =>
      cases hli : l0s.lookup "individual" with
      | none =>
        simp only [hai, hli] at hrun
        exact Option.noConfusion hrun
      | some lv =>
        simp only [hai, hli, reduceIte] at hrun
        cases hloop : groupGenLoop env beta alphas l0s N numG []
            [("individual", (normalDraws prng lv (1 / env.fsqrt (av * beta)) N).1)]
            ((normalDraws prng lv (1 / env.fsqrt (av * beta)) N).1)
            ((normalDraws prng lv (1 / env.fsqrt (av * beta)) N).2) g with
        | none =>
          simp only [hloop] at hrun
          exact Option.noConfusion hrun
        | some r =>
          simp only [hloop] at hrun
          exact ⟨_, _, (Option.some.inj hrun).symm⟩

/-- Witness for C10 on a concrete grouped run. -/
theorem C10_return_shapes_witness :
    ∃ net Gm sc r,
      (Sum.inr (⟨[((0 : Nat), (0 : ℚ))], []⟩, [("a", [[1, 0]])],
        [("individual", [0]), ("a", [0, 0])], ([0] : Vec)) :
          (DiGraphM × List (String × Mat)) ⊕
            (DiGraphM × List (String × Mat) × List (String × Vec) × Vec)) =
        Sum.inr (net, Gm, sc, r) ∧
      SR_planted_network_groups envEx zeroStream (natStream 0) 1 numGroupsEx 1 alphasEx 1
          l0sEx 1 false false = some (Sum.inl (net, Gm)) :=
  C10_return_shapes.2.1 envEx zeroStream (natStream 0) 1 numGroupsEx 1 alphasEx 1 l0sEx
    1 false _ lem_grouped_run0

/- ## C5: infrastructure for the grouped block operator -/


theorem getD_map {α β : Type} (f : α → β) (l : List α) (k : Nat) (hk : k < l.length)
    (d : β) (d0 : α) : (l.map f).getD k d = f (l.getD k d0) := by
  rw [List.getD_eq_getElem?_getD, List.getD_eq_getElem?_getD, List.getElem?_map,
    List.getElem?_eq_getElem hk]
  rfl

theorem getD_mem {α : Type} (l : List α) (k : Nat) (hk : k < l.length) (d : α) :
    l.getD k d ∈ l := by
  rw [List.getD_eq_getElem?_getD, List.getElem?_eq_getElem hk]
  exact List.getElem_mem hk

theorem lookup_of_mem_nodup {β : Type} :
    ∀ (l : List (String × β)), (l.map Prod.fst).Nodup →
    ∀ (t : String) (v : β), (t, v) ∈ l → l.lookup t = some v := by
  intro l
  induction l with
  | nil => intro _ t v hv; simp at hv
  | cons hd tl ih =>
    intro hnodup t v hv
    obtain ⟨a, b⟩ := hd
    rcases List.mem_cons.mp hv with hc | hc
    · obtain ⟨h1, h2⟩ := Prod.mk.injEq t v a b ▸ hc
      subst h1
      subst h2
      simp [List.lookup]
    · have hta : t ≠ a := by
        intro hceq
        subst hceq
        have : t ∈ tl.map Prod.fst := List.mem_map_of_mem Prod.fst hc
        exact (List.nodup_cons.mp hnodup).1 this
    
      have hbe : (t == a) = false := by simpa using hta
      simp only [List.lookup, hbe]
      exact ih (List.nodup_cons.mp hnodup).2 t v hc

/-- Decomposition of an index below `base + sum ws` into the base region
or a block region. -/
theorem idx_decomp : ∀ (ws : List Nat) (base q : Nat), q < base + ws.sum →
    q < base ∨ ∃ k i, k < ws.length ∧ i < ws.getD k 0 ∧ q = base + (ws.take k).sum + i := by
  intro ws
  induction ws with
  | nil => intro base q hq; left; simpa using hq
  | cons w rest ih =>
    intro base q hq
    by_cases hb : q < base
    · exact Or.inl hb
    · by_cases hw : q < base + w
      · right
        exact ⟨0, q - base, by simp, by simpa using (by omega : q - base < w), by simp; omega⟩
      · rcases ih (base + w) q (by simp at hq; omega) with hc | hc
        · exact absurd hc hw
        · obtain ⟨k, i, hk, hi, hqe⟩ := hc
          right
          refine ⟨k + 1, i, by simpa using hk, by simpa using hi, ?_⟩
          rw [List.take_succ_cons, List.sum_cons]
          omega

/- vcat lemmas -/

theorem numRows_vcat : ∀ (l : List Mat) (base : Mat),
    numRows (vcat base l) = numRows base + rowsTotal l := by
  intro l
  induction l with
  | nil => intro base; simp [vcat, rowsTotal]
  | cons M rest ih =>
    intro base
    show numRows (vcat (vstack base M) rest) = _
    rw [ih, numRows_vstack]
    simp [rowsTotal]
    omega

theorem numCols_vcat : ∀ (l : List Mat) (base : Mat), 0 < numRows base →
    numCols (vcat base l) = numCols base := by
  intro l
  induction l with
  | nil => intro base _; rfl
  | cons M rest ih =>
    intro base hb
    show numCols (vcat (vstack base M) rest) = _
    rw [ih (vstack base M) (by rw [numRows_vstack]; omega), numCols_vstack _ _ (by omega)]

theorem mget_vcat_base : ∀ (l : List Mat) (base : Mat) (i j : Nat),
    i < numRows base → j < numCols base → mget (vcat base l) i j = mget base i j := by
  intro l
  induction l with
  | nil => intro base i j _ _; rfl
  | cons M rest ih =>
    intro base i j hi hj
    show mget (vcat (vstack base M) rest) i j = _
    rw [ih (vstack base M) i j (by rw [numRows_vstack]; omega)
      (by rw [numCols_vstack _ _ (by omega)]; omega)]
    rw [mget_vstack, if_pos ⟨by omega, hj⟩, if_pos hi]

theorem mget_vcat_block : ∀ (l : List Mat) (base : Mat) (k i j : Nat),
    k < l.length → i < numRows (l.getD k []) → j < numCols base → 0 < numRows base →
    mget (vcat base l) (numRows base + rowsTotal (l.take k) + i) j =
      mget (l.getD k []) i j := by
  intro l
  induction l with
  | nil => intro base k i j hk _ _ _; simp at hk
  | cons M rest ih =>
    intro base k i j hk hi hj hb
    cases k with
    | zero =>
      show mget (vcat (vstack base M) rest) _ j = _
      simp only [List.getD_cons_zero] at hi ⊢
      have h1 : numRows base + rowsTotal (List.take 0 (M :: rest)) + i = numRows base + i := by
        simp [rowsTotal]
      rw [h1]
      rw [mget_vcat_base rest (vstack base M) _ _
        (by rw [numRows_vstack]; omega)
        (by rw [numCols_vstack _ _ (by omega)]; omega)]
      rw [mget_vstack, if_pos ⟨by omega, hj⟩, if_neg (by omega : ¬(numRows base + i < numRows base))]
      congr 1
      omega
    | succ k2 =>
      show mget (vcat (vstack base M) rest) _ j = _
      simp only [List.getD_cons_succ] at hi ⊢
      have h1 : numRows base + rowsTotal (List.take (k2 + 1) (M :: rest)) + i =
          numRows (vstack base M) + rowsTotal (List.take k2 rest) + i := by
        rw [List.take_succ_cons, numRows_vstack]
        simp [rowsTotal]
        omega
      rw [h1]
      exact ih (vstack base M) k2 i j (by simpa using hk) hi
        (by rw [numCols_vstack _ _ (by omega)]; omega)
        (by rw [numRows_vstack]; omega)

/- hcat lemmas -/

theorem numRows_hcat : ∀ (l : List Mat) (base : Mat),
    numRows (hcat base l) = numRows base := by
  intro l
  induction l with
  | nil => intro base; rfl
  | cons M rest ih =>
    intro base
    show numRows (hcat (hstack base M) rest) = _
    rw [ih, numRows_hstack]

theorem numCols_hcat : ∀ (l : List Mat) (base : Mat), 0 < numRows base →
    numCols (hcat base l) = numCols base + colsTotal l := by
  intro l
  induction l with
  | nil => intro base _; simp [hcat, colsTotal]
  | cons M rest ih =>
    intro base hb
    show numCols (hcat (hstack base M) rest) = _
    rw [ih (hstack base M) (by rw [numRows_hstack]; omega), numCols_hstack _ _ hb]
    simp [colsTotal]
    omega

theorem mget_hcat_base : ∀ (l : List Mat) (base : Mat) (i j : Nat),
    i < numRows base → j < numCols base → mget (hcat base l) i j = mget base i j := by
  intro l
  induction l with
  | nil => intro base i j _ _; rfl
  | cons M rest ih =>
    intro base i j hi hj
    show mget (hcat (hstack base M) rest) i j = _
    rw [ih (hstack base M) i j (by rw [numRows_hstack]; omega)
      (by rw [numCols_hstack _ _ (by omega)]; omega)]
    rw [mget_hstack, if_pos ⟨hi, by omega⟩, if_pos hj]

theorem mget_hcat_block : ∀ (l : List Mat) (base : Mat) (k i j : Nat),
    k < l.length → i < numRows base → j < numCols (l.getD k []) → 0 < numRows base →
    mget (hcat base l) i (numCols base + colsTotal (l.take k) + j) =
      mget (l.getD k []) i j := by
  intro l
  induction l with
  | nil => intro base k i j hk _ _ _; simp at hk
  | cons M rest ih =>
    intro base k i j hk hi hj hb
    cases k with
    | zero =>
      show mget (hcat (hstack base M) rest) i _ = _
      simp only [List.getD_cons_zero] at hj ⊢
      have h1 : numCols base + colsTotal (List.take 0 (M :: rest)) + j = numCols base + j := by
        simp [colsTotal]
      rw [h1]
      rw [mget_hcat_base rest (hstack base M) _ _ (by rw [numRows_hstack]; omega)
        (by rw [numCols_hstack _ _ (by omega)]; omega)]
      rw [mget_hstack, if_pos ⟨hi, by omega⟩,
        if_neg (by omega : ¬(numCols base + j < numCols base))]
      congr 1
      omega
    | succ k2 =>
      show mget (hcat (hstack base M) rest) i _ = _
      simp only [List.getD_cons_succ] at hj ⊢
      have h1 : numCols base + colsTotal (List.take (k2 + 1) (M :: rest)) + j =
          numCols (hstack base M) + colsTotal (List.take k2 rest) + j := by
        rw [List.take_succ_cons, numCols_hstack _ _ hb]
        simp [colsTotal]
        omega
      rw [h1]
      exact ih (hstack base M) k2 i j (by simpa using hk)
        (by rw [numRows_hstack]; omega) hj (by rw [numRows_hstack]; omega)

theorem foldl_congr_fun {α β : Type} (f g : α → β → α) (h : ∀ a b, f a b = g a b) :
    ∀ (l : List β) (init : α), l.foldl f init = l.foldl g init := by
  intro l
  induction l with
  | nil => intro init; rfl
  | cons x xs ih =>
    intro init
    rw [List.foldl_cons, List.foldl_cons, h, ih]

theorem groupRow_eq_hcat (L : Mat) (blocks : List (String × Mat)) (t : String) (Gt : Mat)
    (lam : ℚ) :
    groupRow L blocks t Gt lam =
      hcat (mmul (mT Gt) L) (blocks.map (groupRowBlock Gt t lam)) := by
  unfold groupRow hcat
  rw [List.foldl_map]
  apply foldl_congr_fun
  intro cur sb
  by_cases hsb : sb.1 = t
  · simp [groupRowBlock, hsb]
  · simp [groupRowBlock, hsb]

theorem numRows_groupRow (L : Mat) (blocks : List (String × Mat)) (t : String) (Gt : Mat)
    (lam : ℚ) : numRows (groupRow L blocks t Gt lam) = numCols Gt := by
  rw [groupRow_eq_hcat, numRows_hcat, numRows_mmul, numRows_mT]

theorem rectM_self_mk (n m : Nat) (f : Nat → Nat → ℚ) :
    RectM (mkMat n m f) (numRows (mkMat n m f)) (numCols (mkMat n m f)) := by
  cases n with
  | zero =>
    constructor
    · rfl
    · intro r hr
      simp [mkMat] at hr
  | succ k =>
    rw [numRows_mkMat, numCols_mkMat _ _ _ (Nat.succ_pos k)]
    exact rectM_mkMat _ _ _

theorem rectM_self_vcat : ∀ (l : List Mat) (base : Mat),
    RectM base (numRows base) (numCols base) →
    RectM (vcat base l) (numRows (vcat base l)) (numCols (vcat base l)) := by
  intro l
  induction l with
  | nil => intro base h; exact h
  | cons M rest ih =>
    intro base h
    exact ih (vstack base M) (rectM_self_mk _ _ _)

theorem rectM_self_hcat : ∀ (l : List Mat) (base : Mat),
    RectM base (numRows base) (numCols base) →
    RectM (hcat base l) (numRows (hcat base l)) (numCols (hcat base l)) := by
  intro l
  induction l with
  | nil => intro base h; exact h
  | cons M rest ih =>
    intro base h
    exact ih (hstack base M) (rectM_self_mk _ _ _)

theorem groupsLoop_eq (L : Mat) (kdiff : Vec) (G blocks : List (String × Mat)) :
    ∀ (regl : List (String × ℚ)) (K : Mat) (d : Vec),
    (∀ p ∈ regl, p.1 = "individual" ∨ (G.lookup p.1).isSome = true) →
    groupsLoop L kdiff G blocks regl K d =
      some ((regGroups regl).foldl
              (fun Kc p => vstack Kc (groupRow L blocks p.1 ((G.lookup p.1).getD []) p.2)) K,
            (regGroups regl).foldl
              (fun dc p => dc ++ mvmul (mT ((G.lookup p.1).getD [])) kdiff) d) := by
  intro regl
  induction regl with
  | nil => intro K d _; rfl
  | cons hd tl ih =>
    intro K d h
    obtain ⟨t, lam⟩ := hd
    by_cases ht : t = "individual"
    · have hreg : regGroups ((t, lam) :: tl) = regGroups tl := by
        unfold regGroups
        rw [List.filter_cons_of_neg]
        subst ht
        simp
      simp only [groupsLoop, if_pos ht]
      rw [ih K d (fun p hp => h p (List.mem_cons_of_mem _ hp)), hreg]
    · have hsome : (G.lookup t).isSome = true := by
        rcases h (t, lam) (List.mem_cons_self _ _) with hc | hc
        · exact absurd hc ht
        · exact hc
      obtain ⟨Gt, hGt⟩ := Option.isSome_iff_exists.mp hsome
      have hreg : regGroups ((t, lam) :: tl) = (t, lam) :: regGroups tl := by
        unfold regGroups
        rw [List.filter_cons_of_pos]
        simpa using ht
      simp only [groupsLoop, if_neg ht, hGt]
      rw [ih _ _ (fun p hp => h p (List.mem_cons_of_mem _ hp)), hreg]
      simp only [List.foldl_cons, hGt, Option.getD_some]

/-- Normal form of the assembled grouped system: the top block hstacked
with every column block, vstacked with one row block per non-"individual"
entry of `reg_coeff`. -/
theorem assemble_normal_form (A : Mat) (G : List (String × Mat)) (reg : List (String × ℚ))
    (lamInd : ℚ) (hind : reg.lookup "individual" = some lamInd)
    (hcov : ∀ p ∈ reg, p.1 = "individual" ∨ (G.lookup p.1).isSome = true) :
    ∃ d, SR_groups_assemble A G reg =
      some (vcat
              (hcat (madd (laplacian A) (msmul lamInd (meye (numRows A))))
                ((groupBlocks (laplacian A) G).map Prod.snd))
              ((regGroups reg).map
                (fun p => groupRow (laplacian A) (groupBlocks (laplacian A) G)
                  p.1 ((G.lookup p.1).getD []) p.2)),
            d) := by
  unfold SR_groups_assemble
  simp only [hind]
  rw [groupsLoop_eq (laplacian A) _ G _ reg _ _ hcov]
  refine ⟨(regGroups reg).foldl
      (fun dc p => dc ++ mvmul (mT ((G.lookup p.1).getD [])) (vsub (rowSums A) (colSums A)))
      (vsub (rowSums A) (colSums A)), ?_⟩
  have hv : vcat
      (hcat (madd (laplacian A) (msmul lamInd (meye (numRows A))))
        ((groupBlocks (laplacian A) G).map Prod.snd))
      ((regGroups reg).map
        (fun p => groupRow (laplacian A) (groupBlocks (laplacian A) G)
          p.1 ((G.lookup p.1).getD []) p.2)) =
      (regGroups reg).foldl
        (fun Kc p => vstack Kc (groupRow (laplacian A) (groupBlocks (laplacian A) G)
          p.1 ((G.lookup p.1).getD []) p.2))
        (hcat (madd (laplacian A) (msmul lamInd (meye (numRows A))))
          ((groupBlocks (laplacian A) G).map Prod.snd)) := by
    rw [vcat, List.foldl_map]
  rw [hv]
  rfl

theorem lem_LG_sym {A : Mat} {N : Nat} (hA : RectM A N N) (hN : 0 < N)
    {Gt : Mat} {m : Nat} (hG : RectM Gt N m) (p i : Nat) (hp : p < N) (hi : i < m) :
    mget (mmul (laplacian A) Gt) p i = mget (mmul (mT Gt) (laplacian A)) i p := by
  have hLr : numRows (laplacian A) = N := numRows_laplacian hA
  have hLc : numCols (laplacian A) = N := numCols_laplacian hA hN
  have hGr : numRows Gt = N := hG.1
  have hm : 0 < m := by omega
  have hGc : numCols Gt = m := numCols_of_rectM hG hN
  rw [mget_mmul, hLr, hLc, hGc]
  rw [if_pos (⟨hp, hi⟩ : p < N ∧ i < m)]
  rw [mget_mmul, numRows_mT, hGc, numCols_mT _ (by omega), hGr, hLc]
  rw [if_pos (⟨hi, hp⟩ : i < m ∧ p < N)]
  apply sumR_congr
  intro a ha
  rw [mget_mT, hGr, hGc]
  rw [if_pos (⟨hi, ha⟩ : i < m ∧ a < N)]
  rw [laplacian_symm hA hN a p]
  ring

theorem lem_grid_sym {A : Mat} {N : Nat} (hA : RectM A N N) (hN : 0 < N)
    {Gt : Mat} {m : Nat} (hGt : RectM Gt N m) {Gs : Mat} {m2 : Nat} (hGs : RectM Gs N m2)
    (i j : Nat) (hi : i < m) (hj : j < m2) :
    mget (mmul (mT Gt) (mmul (laplacian A) Gs)) i j =
      mget (mmul (mT Gs) (mmul (laplacian A) Gt)) j i := by
  have hLr : numRows (laplacian A) = N := numRows_laplacian hA
  have hLc : numCols (laplacian A) = N := numCols_laplacian hA hN
  have hGtr : numRows Gt = N := hGt.1
  have hGtc : numCols Gt = m := numCols_of_rectM hGt hN
  have hGsr : numRows Gs = N := hGs.1
  have hGsc : numCols Gs = m2 := numCols_of_rectM hGs hN
  have hm : 0 < m := by omega
  have hm2 : 0 < m2 := by omega
  rw [mget_mmul, numRows_mT, hGtc, numCols_mmul _ _ (by rw [hLr]; omega), hGsc]
  rw [if_pos (⟨hi, hj⟩ : i < m ∧ j < m2)]
  rw [mget_mmul, numRows_mT, hGsc, numCols_mmul _ _ (by rw [hLr]; omega), hGtc]
  rw [if_pos (⟨hj, hi⟩ : j < m2 ∧ i < m)]
  rw [numCols_mT _ (by omega), hGtr, numCols_mT _ (by omega), hGsr]
  have hlhs : sumR N (fun a => mget (mT Gt) i a * mget (mmul (laplacian A) Gs) a j) =
      sumR N (fun a => sumR N (fun b =>
        mget Gt a i * (mget (laplacian A) a b * mget Gs b j))) := by
    apply sumR_congr
    intro a ha
    rw [mget_mT, hGtr, hGtc, if_pos (⟨hi, ha⟩ : i < m ∧ a < N)]
    rw [mget_mmul, hLr, hLc, hGsc, if_pos (⟨ha, hj⟩ : a < N ∧ j < m2)]
    rw [sumR_eq_finset, sumR_eq_finset, Finset.mul_sum]
  have hrhs : sumR N (fun b => mget (mT Gs) j b * mget (mmul (laplacian A) Gt) b i) =
      sumR N (fun b => sumR N (fun a =>
        mget Gs b j * (mget (laplacian A) b a * mget Gt a i))) := by
    apply sumR_congr
    intro b hb
    rw [mget_mT, hGsr, hGsc, if_pos (⟨hj, hb⟩ : j < m2 ∧ b < N)]
    rw [mget_mmul, hLr, hLc, hGtc, if_pos (⟨hb, hi⟩ : b < N ∧ i < m)]
    rw [sumR_eq_finset, sumR_eq_finset, Finset.mul_sum]
  rw [hlhs, hrhs]
  simp only [sumR_eq_finset]
  rw [Finset.sum_comm]
  apply Finset.sum_congr rfl
  intro b _
  apply Finset.sum_congr rfl
  intro a _
  rw [laplacian_symm hA hN a b]
  ring


theorem sum_take_bound : ∀ (ws : List Nat) (k : Nat), k < ws.length →
    (ws.take k).sum + ws.getD k 0 ≤ ws.sum := by
  intro ws
  induction ws with
  | nil => intro k hk; simp at hk
  | cons w rest ih =>
    intro k hk
    cases k with
    | zero => simp
    | succ k2 =>
      have := ih k2 (by simpa using hk)
      simp only [List.take_succ_cons, List.sum_cons, List.getD_cons_succ]
      omega

theorem getD_eq_getElem_of_lt {α : Type} (l : List α) (k : Nat) (hk : k < l.length) (d : α) :
    l.getD k d = l[k] := by
  rw [List.getD_eq_getElem?_getD, List.getElem?_eq_getElem hk]
  rfl

set_option maxHeartbeats 1600000 in
/-- Dimensions of the assembled grouped operator. -/
theorem c5K_rect (A : Mat) (G : List (String × Mat)) (reg : List (String × ℚ))
    (N : Nat) (lamInd : ℚ)
    (hA : RectM A N N) (hN : 0 < N)
    (hG : ∀ p ∈ G, RectM p.2 N (numCols p.2))
    (hnodup : (G.map Prod.fst).Nodup)
    (hkeys : (regGroups reg).map Prod.fst = G.map Prod.fst) :
    RectM (c5K A G reg lamInd) (groupsSize N G) (groupsSize N G) := by
  unfold c5K c5K0 c5rows
  set L := laplacian A with hLdef
  have hNrows : numRows A = N := hA.1
  have hLr : numRows L = N := numRows_laplacian hA
  have hLc : numCols L = N := numCols_laplacian hA hN
  set blocks := groupBlocks L G with hblocksdef
  set bl := blocks.map Prod.snd with hbl
  set base := madd L (msmul lamInd (meye (numRows A))) with hbase
  set rowfun : String × ℚ → Mat :=
    (fun p => groupRow L blocks p.1 ((G.lookup p.1).getD []) p.2) with hrowfun
  set rows := (regGroups reg).map rowfun with hrows
  set K0 := hcat base bl with hK0
  set Kc := vcat K0 rows with hKc
  have hbr : numRows base = N := by rw [hbase, numRows_madd, hLr]
  have hbc : numCols base = N := by
    rw [hbase, numCols_madd _ _ (by rw [hLr]; omega), hLc]
  have hblG : bl = G.map (fun p => mmul L p.2) := by
    rw [hbl, hblocksdef]
    unfold groupBlocks
    rw [List.map_map]
    rfl
  have hbllen : bl.length = G.length := by rw [hblG, List.length_map]
  have hblw : ∀ p : Mat, numCols (mmul L p) = numCols p :=
    fun p => numCols_mmul _ _ (by rw [hLr]; omega)
  set ws := G.map (fun p => numCols p.2) with hws
  have hwslen : ws.length = G.length := by rw [hws, List.length_map]
  have hcolsbl : ∀ k, colsTotal (bl.take k) = (ws.take k).sum := by
    intro k
    rw [hblG, colsTotal, ← List.map_take, List.map_map, hws, ← List.map_take]
    congr 1
    apply List.map_congr_left
    intro p _
    exact hblw p.2
  have hcolsblAll : colsTotal bl = ws.sum := by
    have h1 := hcolsbl bl.length
    rw [List.take_length] at h1
    rw [hbllen, ← hwslen, List.take_length] at h1
    exact h1
  have hK0r : numRows K0 = N := by rw [hK0, numRows_hcat, hbr]
  have hK0c : numCols K0 = N + ws.sum := by
    rw [hK0, numCols_hcat _ _ (by rw [hbr]; omega), hbc, hcolsblAll]
  have hoffk : ∀ k, colOffset N G k = N + (ws.take k).sum := by
    intro k
    rw [hws, ← List.map_take]
    rfl
  have hwsk : ∀ k, k < G.length → ws.getD k 0 = Gwidth G k := by
    intro k hk
    rw [hws, getD_map _ _ _ hk 0 ("", [])]
    rfl
  have hreglen : (regGroups reg).length = G.length := by
    rw [← List.length_map (regGroups reg) Prod.fst, hkeys, List.length_map]
  have hkey : ∀ k, k < G.length →
      ((regGroups reg).getD k ("", 0)).1 = (G.getD k ("", [])).1 := by
    intro k hk
    have h1 := congrArg (fun l => l.getD k "") hkeys
    simp only at h1
    rw [getD_map _ _ _ (by omega : k < (regGroups reg).length) "" ("", 0)] at h1
    rw [getD_map _ _ _ hk "" ("", [])] at h1
    exact h1
  have hlook : ∀ k, k < G.length →
      G.lookup ((regGroups reg).getD k ("", 0)).1 = some (Gmat G k) := by
    intro k hk
    rw [hkey k hk]
    exact lookup_of_mem_nodup G hnodup _ _ (by
      show ((G.getD k ("", [])).1, (G.getD k ("", [])).2) ∈ G
      rw [Prod.mk.eta]
      exact getD_mem G k hk _)
  have hrowslen : rows.length = G.length := by rw [hrows, List.length_map, hreglen]
  have hrowk : ∀ k, k < G.length → rows.getD k [] =
      groupRow L blocks ((G.getD k ("", [])).1) (Gmat G k) (regLam reg k) := by
    intro k hk
    rw [hrows, getD_map _ _ _ (by omega : k < (regGroups reg).length) [] ("", 0), hrowfun]
    simp only
    rw [hlook k hk, hkey k hk]
    rfl
  have hrowR : ∀ k, k < G.length → numRows (rows.getD k []) = Gwidth G k := by
    intro k hk
    rw [hrowk k hk, numRows_groupRow]
    rfl
  have hrowsmap : rows.map numRows = ws := by
    apply List.ext_getElem
    · rw [List.length_map, hrowslen, hwslen]
    · intro k h1 h2
      have hk : k < G.length := by rw [List.length_map, hrowslen] at h1; exact h1
      rw [List.getElem_map]
      rw [← getD_eq_getElem_of_lt rows k (by omega) []]
      rw [← getD_eq_getElem_of_lt ws k (by omega) 0]
      rw [hrowR k hk, hwsk k hk]
  have hrowstot : ∀ k, rowsTotal (rows.take k) = (ws.take k).sum := by
    intro k
    rw [rowsTotal, List.map_take, hrowsmap]
  have hrowstotAll : rowsTotal rows = ws.sum := by
    have h1 := hrowstot rows.length
    rw [List.take_length] at h1
    rw [hrowslen, ← hwslen, List.take_length] at h1
    exact h1
  have hKcr : numRows Kc = N + ws.sum := by
    rw [hKc, numRows_vcat, hK0r, hrowstotAll]
  have hKcc : numCols Kc = N + ws.sum := by
    rw [hKc, numCols_vcat _ _ (by rw [hK0r]; omega), hK0c]
  have hSM : groupsSize N G = N + ws.sum := rfl
  have h1 := rectM_self_vcat rows K0
    (rectM_self_hcat bl base (by rw [hbase]; unfold madd; exact rectM_self_mk _ _ _))
  rw [← hKc, hKcr, hKcc] at h1
  rw [hSM]
  exact h1

set_option maxHeartbeats 1600000 in
/-- Top-left block of the assembled grouped operator. -/
theorem c5K_B1 (A : Mat) (G : List (String × Mat)) (reg : List (String × ℚ))
    (N : Nat) (lamInd : ℚ)
    (hA : RectM A N N) (hN : 0 < N)
    (hG : ∀ p ∈ G, RectM p.2 N (numCols p.2))
    (hnodup : (G.map Prod.fst).Nodup)
    (hkeys : (regGroups reg).map Prod.fst = G.map Prod.fst) :
    ∀ i j, i < N → j < N →
      mget (c5K A G reg lamInd) i j =
        mget (laplacian A) i j + (if i = j then lamInd else 0) := by
  unfold c5K c5K0 c5rows
  set L := laplacian A with hLdef
  have hNrows : numRows A = N := hA.1
  have hLr : numRows L = N := numRows_laplacian hA
  have hLc : numCols L = N := numCols_laplacian hA hN
  set blocks := groupBlocks L G with hblocksdef
  set bl := blocks.map Prod.snd with hbl
  set base := madd L (msmul lamInd (meye (numRows A))) with hbase
  set rowfun : String × ℚ → Mat :=
    (fun p => groupRow L blocks p.1 ((G.lookup p.1).getD []) p.2) with hrowfun
  set rows := (regGroups reg).map rowfun with hrows
  set K0 := hcat base bl with hK0
  set Kc := vcat K0 rows with hKc
  have hbr : numRows base = N := by rw [hbase, numRows_madd, hLr]
  have hbc : numCols base = N := by
    rw [hbase, numCols_madd _ _ (by rw [hLr]; omega), hLc]
  have hblG : bl = G.map (fun p => mmul L p.2) := by
    rw [hbl, hblocksdef]
    unfold groupBlocks
    rw [List.map_map]
    rfl
  have hbllen : bl.length = G.length := by rw [hblG, List.length_map]
  have hblw : ∀ p : Mat, numCols (mmul L p) = numCols p :=
    fun p => numCols_mmul _ _ (by rw [hLr]; omega)
  set ws := G.map (fun p => numCols p.2) with hws
  have hwslen : ws.length = G.length := by rw [hws, List.length_map]
  have hcolsbl : ∀ k, colsTotal (bl.take k) = (ws.take k).sum := by
    intro k
    rw [hblG, colsTotal, ← List.map_take, List.map_map, hws, ← List.map_take]
    congr 1
    apply List.map_congr_left
    intro p _
    exact hblw p.2
  have hcolsblAll : colsTotal bl = ws.sum := by
    have h1 := hcolsbl bl.length
    rw [List.take_length] at h1
    rw [hbllen, ← hwslen, List.take_length] at h1
    exact h1
  have hK0r : numRows K0 = N := by rw [hK0, numRows_hcat, hbr]
  have hK0c : numCols K0 = N + ws.sum := by
    rw [hK0, numCols_hcat _ _ (by rw [hbr]; omega), hbc, hcolsblAll]
  intro i j hi hj
  rw [hKc, mget_vcat_base rows K0 i j (by omega) (by rw [hK0c]; omega)]
  rw [hK0, mget_hcat_base bl base i j (by omega) (by omega)]
  rw [hbase, mget_madd, hLr, hLc]
  rw [if_pos (⟨hi, hj⟩ : i < N ∧ j < N)]
  rw [mget_msmul, numRows_meye, numCols_meye _ (by omega : 0 < numRows A), hNrows]
  rw [if_pos (⟨hi, hj⟩ : i < N ∧ j < N)]
  rw [mget_meye, if_pos (⟨hi, hj⟩ : i < N ∧ j < N)]
  by_cases hij : i = j
  · simp [hij]
  · simp [hij]

set_option maxHeartbeats 1600000 in
/-- Top-right column blocks of the assembled grouped operator. -/
theorem c5K_B2 (A : Mat) (G : List (String × Mat)) (reg : List (String × ℚ))
    (N : Nat) (lamInd : ℚ)
    (hA : RectM A N N) (hN : 0 < N)
    (hG : ∀ p ∈ G, RectM p.2 N (numCols p.2))
    (hnodup : (G.map Prod.fst).Nodup)
    (hkeys : (regGroups reg).map Prod.fst = G.map Prod.fst) :
    ∀ k, k < G.length → ∀ i j, i < N → j < Gwidth G k →
      mget (c5K A G reg lamInd) i (colOffset N G k + j) =
        mget (mmul (laplacian A) (Gmat G k)) i j := by
  unfold c5K c5K0 c5rows
  set L := laplacian A with hLdef
  have hNrows : numRows A = N := hA.1
  have hLr : numRows L = N := numRows_laplacian hA
  have hLc : numCols L = N := numCols_laplacian hA hN
  set blocks := groupBlocks L G with hblocksdef
  set bl := blocks.map Prod.snd with hbl
  set base := madd L (msmul lamInd (meye (numRows A))) with hbase
  set rowfun : String × ℚ → Mat :=
    (fun p => groupRow L blocks p.1 ((G.lookup p.1).getD []) p.2) with hrowfun
  set rows := (regGroups reg).map rowfun with hrows
  set K0 := hcat base bl with hK0
  set Kc := vcat K0 rows with hKc
  have hbr : numRows base = N := by rw [hbase, numRows_madd, hLr]
  have hbc : numCols base = N := by
    rw [hbase, numCols_madd _ _ (by rw [hLr]; omega), hLc]
  have hblG : bl = G.map (fun p => mmul L p.2) := by
    rw [hbl, hblocksdef]
    unfold groupBlocks
    rw [List.map_map]
    rfl
  have hbllen : bl.length = G.length := by rw [hblG, List.length_map]
  have hblw : ∀ p : Mat, numCols (mmul L p) = numCols p :=
    fun p => numCols_mmul _ _ (by rw [hLr]; omega)
  set ws := G.map (fun p => numCols p.2) with hws
  have hwslen : ws.length = G.length := by rw [hws, List.length_map]
  have hcolsbl : ∀ k, colsTotal (bl.take k) = (ws.take k).sum := by
    intro k
    rw [hblG, colsTotal, ← List.map_take, List.map_map, hws, ← List.map_take]
    congr 1
    apply List.map_congr_left
    intro p _
    exact hblw p.2
  have hcolsblAll : colsTotal bl = ws.sum := by
    have h1 := hcolsbl bl.length
    rw [List.take_length] at h1
    rw [hbllen, ← hwslen, List.take_length] at h1
    exact h1
  have hK0r : numRows K0 = N := by rw [hK0, numRows_hcat, hbr]
  have hK0c : numCols K0 = N + ws.sum := by
    rw [hK0, numCols_hcat _ _ (by rw [hbr]; omega), hbc, hcolsblAll]
  have hoffk : ∀ k, colOffset N G k = N + (ws.take k).sum := by
    intro k
    rw [hws, ← List.map_take]
    rfl
  have hwsk : ∀ k, k < G.length → ws.getD k 0 = Gwidth G k := by
    intro k hk
    rw [hws, getD_map _ _ _ hk 0 ("", [])]
    rfl
  have hblk : ∀ k, k < G.length → bl.getD k [] = mmul L (Gmat G k) := by
    intro k hk
    rw [hblG, getD_map _ _ _ hk [] ("", [])]
    rfl
  intro k hk i j hi hj
  have hbound := sum_take_bound ws k (by omega)
  rw [hwsk k hk] at hbound
  have hjb : colOffset N G k + j < numCols K0 := by
    rw [hK0c, hoffk k]
    omega
  rw [hKc, mget_vcat_base rows K0 _ _ (by omega) hjb]
  have hidx : colOffset N G k + j = numCols base + colsTotal (bl.take k) + j := by
    rw [hbc, hcolsbl k, hoffk k]
  rw [hK0, hidx, mget_hcat_block bl base k i j (by omega) (by omega)
    (by rw [hblk k hk, hblw]; exact hj) (by omega)]
  rw [hblk k hk]

set_option maxHeartbeats 1600000 in
/-- Bottom-left row blocks of the assembled grouped operator. -/
theorem c5K_B3 (A : Mat) (G : List (String × Mat)) (reg : List (String × ℚ))
    (N : Nat) (lamInd : ℚ)
    (hA : RectM A N N) (hN : 0 < N)
    (hG : ∀ p ∈ G, RectM p.2 N (numCols p.2))
    (hnodup : (G.map Prod.fst).Nodup)
    (hkeys : (regGroups reg).map Prod.fst = G.map Prod.fst) :
    ∀ k, k < G.length → ∀ i j, i < Gwidth G k → j < N →
      mget (c5K A G reg lamInd) (colOffset N G k + i) j =
        mget (mmul (mT (Gmat G k)) (laplacian A)) i j := by
  unfold c5K c5K0 c5rows
  set L := laplacian A with hLdef
  have hNrows : numRows A = N := hA.1
  have hLr : numRows L = N := numRows_laplacian hA
  have hLc : numCols L = N := numCols_laplacian hA hN
  set blocks := groupBlocks L G with hblocksdef
  set bl := blocks.map Prod.snd with hbl
  set base := madd L (msmul lamInd (meye (numRows A))) with hbase
  set rowfun : String × ℚ → Mat :=
    (fun p => groupRow L blocks p.1 ((G.lookup p.1).getD []) p.2) with hrowfun
  set rows := (regGroups reg).map rowfun with hrows
  set K0 := hcat base bl with hK0
  set Kc := vcat K0 rows with hKc
  have hbr : numRows base = N := by rw [hbase, numRows_madd, hLr]
  have hbc : numCols base = N := by
    rw [hbase, numCols_madd _ _ (by rw [hLr]; omega), hLc]
  have hblG : bl = G.map (fun p => mmul L p.2) := by
    rw [hbl, hblocksdef]
    unfold groupBlocks
    rw [List.map_map]
    rfl
  have hbllen : bl.length = G.length := by rw [hblG, List.length_map]
  have hblw : ∀ p : Mat, numCols (mmul L p) = numCols p :=
    fun p => numCols_mmul _ _ (by rw [hLr]; omega)
  set ws := G.map (fun p => numCols p.2) with hws
  have hwslen : ws.length = G.length := by rw [hws, List.length_map]
  have hcolsbl : ∀ k, colsTotal (bl.take k) = (ws.take k).sum := by
    intro k
    rw [hblG, colsTotal, ← List.map_take, List.map_map, hws, ← List.map_take]
    congr 1
    apply List.map_congr_left
    intro p _
    exact hblw p.2
  have hcolsblAll : colsTotal bl = ws.sum := by
    have h1 := hcolsbl bl.length
    rw [List.take_length] at h1
    rw [hbllen, ← hwslen, List.take_length] at h1
    exact h1
  have hK0r : numRows K0 = N := by rw [hK0, numRows_hcat, hbr]
  have hK0c : numCols K0 = N + ws.sum := by
    rw [hK0, numCols_hcat _ _ (by rw [hbr]; omega), hbc, hcolsblAll]
  have hoffk : ∀ k, colOffset N G k = N + (ws.take k).sum := by
    intro k
    rw [hws, ← List.map_take]
    rfl
  have hwsk : ∀ k, k < G.length → ws.getD k 0 = Gwidth G k := by
    intro k hk
    rw [hws, getD_map _ _ _ hk 0 ("", [])]
    rfl
  have hreglen : (regGroups reg).length = G.length := by
    rw [← List.length_map (regGroups reg) Prod.fst, hkeys, List.length_map]
  have hkey : ∀ k, k < G.length →
      ((regGroups reg).getD k ("", 0)).1 = (G.getD k ("", [])).1 := by
    intro k hk
    have h1 := congrArg (fun l => l.getD k "") hkeys
    simp only at h1
    rw [getD_map _ _ _ (by omega : k < (regGroups reg).length) "" ("", 0)] at h1
    rw [getD_map _ _ _ hk "" ("", [])] at h1
    exact h1
  have hlook : ∀ k, k < G.length →
      G.lookup ((regGroups reg).getD k ("", 0)).1 = some (Gmat G k) := by
    intro k hk
    rw [hkey k hk]
    exact lookup_of_mem_nodup G hnodup _ _ (by
      show ((G.getD k ("", [])).1, (G.getD k ("", [])).2) ∈ G
      rw [Prod.mk.eta]
      exact getD_mem G k hk _)
  have hrowslen : rows.length = G.length := by rw [hrows, List.length_map, hreglen]
  have hrowk : ∀ k, k < G.length → rows.getD k [] =
      groupRow L blocks ((G.getD k ("", [])).1) (Gmat G k) (regLam reg k) := by
    intro k hk
    rw [hrows, getD_map _ _ _ (by omega : k < (regGroups reg).length) [] ("", 0), hrowfun]
    simp only
    rw [hlook k hk, hkey k hk]
    rfl
  have hrowR : ∀ k, k < G.length → numRows (rows.getD k []) = Gwidth G k := by
    intro k hk
    rw [hrowk k hk, numRows_groupRow]
    rfl
  have hrowsmap : rows.map numRows = ws := by
    apply List.ext_getElem
    · rw [List.length_map, hrowslen, hwslen]
    · intro k h1 h2
      have hk : k < G.length := by rw [List.length_map, hrowslen] at h1; exact h1
      rw [List.getElem_map]
      rw [← getD_eq_getElem_of_lt rows k (by omega) []]
      rw [← getD_eq_getElem_of_lt ws k (by omega) 0]
      rw [hrowR k hk, hwsk k hk]
  have hrowstot : ∀ k, rowsTotal (rows.take k) = (ws.take k).sum := by
    intro k
    rw [rowsTotal, List.map_take, hrowsmap]
  intro k hk i j hi hj
  have hidx : colOffset N G k + i = numRows K0 + rowsTotal (rows.take k) + i := by
    rw [hK0r, hrowstot k, hoffk k]
  rw [hKc, hidx, mget_vcat_block rows K0 k i j (by omega)
    (by rw [hrowR k hk]; omega) (by rw [hK0c]; omega) (by rw [hK0r]; omega)]
  rw [hrowk k hk, groupRow_eq_hcat]
  have hrbr : numRows (mmul (mT (Gmat G k)) L) = Gwidth G k := by
    rw [numRows_mmul, numRows_mT]
    rfl
  have hrbc : numCols (mmul (mT (Gmat G k)) L) = N := by
    rw [numCols_mmul _ _ (by rw [numRows_mT]; show 0 < Gwidth G k; omega), hLc]
  rw [mget_hcat_base _ _ i j (by rw [hrbr]; omega) (by rw [hrbc]; omega)]

set_option maxHeartbeats 1600000 in
/-- Group-group blocks of the assembled grouped operator. -/
theorem c5K_B4 (A : Mat) (G : List (String × Mat)) (reg : List (String × ℚ))
    (N : Nat) (lamInd : ℚ)
    (hA : RectM A N N) (hN : 0 < N)
    (hG : ∀ p ∈ G, RectM p.2 N (numCols p.2))
    (hnodup : (G.map Prod.fst).Nodup)
    (hkeys : (regGroups reg).map Prod.fst = G.map Prod.fst) :
    ∀ k k2, k < G.length → k2 < G.length →
      ∀ i j, i < Gwidth G k → j < Gwidth G k2 →
      mget (c5K A G reg lamInd) (colOffset N G k + i) (colOffset N G k2 + j) =
        mget (mmul (mT (Gmat G k)) (mmul (laplacian A) (Gmat G k2))) i j +
        (if k = k2 ∧ i = j then regLam reg k else 0) := by
  unfold c5K c5K0 c5rows
  set L := laplacian A with hLdef
  have hNrows : numRows A = N := hA.1
  have hLr : numRows L = N := numRows_laplacian hA
  have hLc : numCols L = N := numCols_laplacian hA hN
  set blocks := groupBlocks L G with hblocksdef
  set bl := blocks.map Prod.snd with hbl
  set base := madd L (msmul lamInd (meye (numRows A))) with hbase
  set rowfun : String × ℚ → Mat :=
    (fun p => groupRow L blocks p.1 ((G.lookup p.1).getD []) p.2) with hrowfun
  set rows := (regGroups reg).map rowfun with hrows
  set K0 := hcat base bl with hK0
  set Kc := vcat K0 rows with hKc
  have hbr : numRows base = N := by rw [hbase, numRows_madd, hLr]
  have hbc : numCols base = N := by
    rw [hbase, numCols_madd _ _ (by rw [hLr]; omega), hLc]
  have hblG : bl = G.map (fun p => mmul L p.2) := by
    rw [hbl, hblocksdef]
    unfold groupBlocks
    rw [List.map_map]
    rfl
  have hbllen : bl.length = G.length := by rw [hblG, List.length_map]
  have hblw : ∀ p : Mat, numCols (mmul L p) = numCols p :=
    fun p => numCols_mmul _ _ (by rw [hLr]; omega)
  set ws := G.map (fun p => numCols p.2) with hws
  have hwslen : ws.length = G.length := by rw [hws, List.length_map]
  have hcolsbl : ∀ k, colsTotal (bl.take k) = (ws.take k).sum := by
    intro k
    rw [hblG, colsTotal, ← List.map_take, List.map_map, hws, ← List.map_take]
    congr 1
    apply List.map_congr_left
    intro p _
    exact hblw p.2
  have hcolsblAll : colsTotal bl = ws.sum := by
    have h1 := hcolsbl bl.length
    rw [List.take_length] at h1
    rw [hbllen, ← hwslen, List.take_length] at h1
    exact h1
  have hK0r : numRows K0 = N := by rw [hK0, numRows_hcat, hbr]
  have hK0c : numCols K0 = N + ws.sum := by
    rw [hK0, numCols_hcat _ _ (by rw [hbr]; omega), hbc, hcolsblAll]
  have hoffk : ∀ k, colOffset N G k = N + (ws.take k).sum := by
    intro k
    rw [hws, ← List.map_take]
    rfl
  have hwsk : ∀ k, k < G.length → ws.getD k 0 = Gwidth G k := by
    intro k hk
    rw [hws, getD_map _ _ _ hk 0 ("", [])]
    rfl
  have hreglen : (regGroups reg).length = G.length := by
    rw [← List.length_map (regGroups reg) Prod.fst, hkeys, List.length_map]
  have hkey : ∀ k, k < G.length →
      ((regGroups reg).getD k ("", 0)).1 = (G.getD k ("", [])).1 := by
    intro k hk
    have h1 := congrArg (fun l => l.getD k "") hkeys
    simp only at h1
    rw [getD_map _ _ _ (by omega : k < (regGroups reg).length) "" ("", 0)] at h1
    rw [getD_map _ _ _ hk "" ("", [])] at h1
    exact h1
  have hlook : ∀ k, k < G.length →
      G.lookup ((regGroups reg).getD k ("", 0)).1 = some (Gmat G k) := by
    intro k hk
    rw [hkey k hk]
    exact lookup_of_mem_nodup G hnodup _ _ (by
      show ((G.getD k ("", [])).1, (G.getD k ("", [])).2) ∈ G
      rw [Prod.mk.eta]
      exact getD_mem G k hk _)
  have hrowslen : rows.length = G.length := by rw [hrows, List.length_map, hreglen]
  have hrowk : ∀ k, k < G.length → rows.getD k [] =
      groupRow L blocks ((G.getD k ("", [])).1) (Gmat G k) (regLam reg k) := by
    intro k hk
    rw [hrows, getD_map _ _ _ (by omega : k < (regGroups reg).length) [] ("", 0), hrowfun]
    simp only
    rw [hlook k hk, hkey k hk]
    rfl
  have hrowR : ∀ k, k < G.length → numRows (rows.getD k []) = Gwidth G k := by
    intro k hk
    rw [hrowk k hk, numRows_groupRow]
    rfl
  have hrowsmap : rows.map numRows = ws := by
    apply List.ext_getElem
    · rw [List.length_map, hrowslen, hwslen]
    · intro k h1 h2
      have hk : k < G.length := by rw [List.length_map, hrowslen] at h1; exact h1
      rw [List.getElem_map]
      rw [← getD_eq_getElem_of_lt rows k (by omega) []]
      rw [← getD_eq_getElem_of_lt ws k (by omega) 0]
      rw [hrowR k hk, hwsk k hk]
  have hrowstot : ∀ k, rowsTotal (rows.take k) = (ws.take k).sum := by
    intro k
    rw [rowsTotal, List.map_take, hrowsmap]
  have hkeyinj : ∀ k k2, k < G.length → k2 < G.length →
      ((G.getD k2 ("", [])).1 = (G.getD k ("", [])).1 ↔ k2 = k) := by
    intro k k2 hk hk2
    constructor
    · intro heq
      have hk2m : k2 < (G.map Prod.fst).length := by rw [List.length_map]; omega
      have hkm : k < (G.map Prod.fst).length := by rw [List.length_map]; omega
      have h1 : (G.map Prod.fst).get ⟨k2, hk2m⟩ = (G.map Prod.fst).get ⟨k, hkm⟩ := by
        rw [List.get_eq_getElem, List.get_eq_getElem, List.getElem_map, List.getElem_map]
        rw [← getD_eq_getElem_of_lt G k2 hk2 ("", []), ← getD_eq_getElem_of_lt G k hk ("", [])]
        exact heq
      exact hnodup.getElem_inj_iff.mp h1
    · intro heq
      rw [heq]
  intro k k2 hk hk2 i j hi hj
  have hidx : colOffset N G k + i = numRows K0 + rowsTotal (rows.take k) + i := by
    rw [hK0r, hrowstot k, hoffk k]
  have hbound2 := sum_take_bound ws k2 (by omega)
  rw [hwsk k2 hk2] at hbound2
  have hqb : colOffset N G k2 + j < numCols K0 := by
    rw [hK0c, hoffk k2]
    omega
  rw [hKc, hidx, mget_vcat_block rows K0 k i _ (by omega)
    (by rw [hrowR k hk]; omega) hqb (by rw [hK0r]; omega)]
  rw [hrowk k hk, groupRow_eq_hcat]
  set Gk := Gmat G k with hGkdef
  set rblocks := blocks.map
    (groupRowBlock Gk ((G.getD k ("", [])).1) (regLam reg k)) with hrbdef
  have hrbr : numRows (mmul (mT Gk) L) = Gwidth G k := by
    rw [numRows_mmul, numRows_mT]
    rfl
  have hrbc : numCols (mmul (mT Gk) L) = N := by
    rw [numCols_mmul _ _ (by rw [numRows_mT]; show 0 < Gwidth G k; omega), hLc]
  have hrbG : rblocks = G.map (fun p =>
      groupRowBlock Gk ((G.getD k ("", [])).1) (regLam reg k) (p.1, mmul L p.2)) := by
    rw [hrbdef, hblocksdef]
    unfold groupBlocks
    rw [List.map_map]
    rfl
  have hrblen : rblocks.length = G.length := by rw [hrbG, List.length_map]
  have hrbw : ∀ p : String × Mat,
      numCols (groupRowBlock Gk ((G.getD k ("", [])).1) (regLam reg k)
        (p.1, mmul L p.2)) = numCols p.2 := by
    intro p
    unfold groupRowBlock
    by_cases hc : (p.1, mmul L p.2).1 = (G.getD k ("", [])).1
    · rw [if_pos hc, numCols_madd _ _ (by
        rw [numRows_mmul, numRows_mT]
        show 0 < Gwidth G k
        omega)]
      rw [numCols_mmul _ _ (by
        rw [numRows_mT]
        show 0 < Gwidth G k
        omega)]
      exact hblw p.2
    · rw [if_neg hc]
      rw [numCols_mmul _ _ (by
        rw [numRows_mT]
        show 0 < Gwidth G k
        omega)]
      exact hblw p.2
  have hrbcols : colsTotal (rblocks.take k2) = (ws.take k2).sum := by
    rw [hrbG, colsTotal, ← List.map_take, List.map_map, hws, ← List.map_take]
    congr 1
    apply List.map_congr_left
    intro p _
    exact hrbw p
  have hrbk : rblocks.getD k2 [] =
      groupRowBlock Gk ((G.getD k ("", [])).1) (regLam reg k)
        ((G.getD k2 ("", [])).1, mmul L ((G.getD k2 ("", [])).2)) := by
    rw [hrbG, getD_map _ _ _ hk2 [] ("", [])]
  have hidx2 : colOffset N G k2 + j =
      numCols (mmul (mT Gk) L) + colsTotal (rblocks.take k2) + j := by
    rw [hrbc, hrbcols, hoffk k2]
  rw [hidx2, mget_hcat_block rblocks (mmul (mT Gk) L) k2 i j (by omega)
    (by rw [hrbr]; omega)
    (by
      rw [hrbk, hrbw (G.getD k2 ("", []))]
      exact hj) (by rw [hrbr]; omega)]
  rw [hrbk]
  unfold groupRowBlock
  have hGm2 : Gmat G k2 = (G.getD k2 ("", [])).2 := rfl
  by_cases hkk : k2 = k
  · subst hkk
    have hc : ((G.getD k2 ("", [])).1, mmul L ((G.getD k2 ("", [])).2)).1 =
        (G.getD k2 ("", [])).1 := rfl
    rw [if_pos hc]
    have hd1 : numRows (mmul (mT Gk) (mmul L ((G.getD k2 ("", [])).2))) = Gwidth G k2 := by
      rw [numRows_mmul, numRows_mT]
      rfl
    have hd2 : numCols (mmul (mT Gk) (mmul L ((G.getD k2 ("", [])).2))) = Gwidth G k2 := by
      rw [numCols_mmul _ _ (by rw [numRows_mT]; show 0 < Gwidth G k2; omega)]
      rw [hblw]
      rfl
    rw [mget_madd, hd1, hd2, if_pos (⟨hi, hj⟩ : i < Gwidth G k2 ∧ j < Gwidth G k2)]
    have hd3 : numCols Gk = Gwidth G k2 := rfl
    rw [mget_msmul, numRows_meye, numCols_meye _ (by rw [hd3]; omega), hd3]
    rw [if_pos (⟨hi, hj⟩ : i < Gwidth G k2 ∧ j < Gwidth G k2)]
    rw [mget_meye, if_pos (⟨hi, hj⟩ : i < Gwidth G k2 ∧ j < Gwidth G k2)]
    rw [hGm2]
    by_cases hij : i = j
    · simp [hij]
    · simp [hij]
  · have hc : ¬(((G.getD k2 ("", [])).1, mmul L ((G.getD k2 ("", [])).2)).1 =
        (G.getD k ("", [])).1) := by
      intro h
      exact hkk ((hkeyinj k k2 hk hk2).mp h)
    rw [if_neg hc, if_neg (fun h => hkk (h.1.symm)), add_zero, hGm2]

/-- Symmetry of any matrix whose blocks satisfy the four block-content
equations of the grouped operator. -/
theorem c5_sym_of_blocks (A : Mat) (G : List (String × Mat)) (reg : List (String × ℚ))
    (N : Nat) (lamInd : ℚ) (K : Mat)
    (hA : RectM A N N) (hN : 0 < N)
    (hG : ∀ p ∈ G, RectM p.2 N (numCols p.2))
    (hB1 : ∀ i j, i < N → j < N →
      mget K i j = mget (laplacian A) i j + (if i = j then lamInd else 0))
    (hB2 : ∀ k, k < G.length → ∀ i j, i < N → j < Gwidth G k →
      mget K i (colOffset N G k + j) = mget (mmul (laplacian A) (Gmat G k)) i j)
    (hB3 : ∀ k, k < G.length → ∀ i j, i < Gwidth G k → j < N →
      mget K (colOffset N G k + i) j = mget (mmul (mT (Gmat G k)) (laplacian A)) i j)
    (hB4 : ∀ k k2, k < G.length → k2 < G.length →
      ∀ i j, i < Gwidth G k → j < Gwidth G k2 →
      mget K (colOffset N G k + i) (colOffset N G k2 + j) =
        mget (mmul (mT (Gmat G k)) (mmul (laplacian A) (Gmat G k2))) i j +
        (if k = k2 ∧ i = j then regLam reg k else 0)) :
    ∀ p q, p < groupsSize N G → q < groupsSize N G → mget K p q = mget K q p := by
  set ws := G.map (fun p => numCols p.2) with hws
  have hwslen : ws.length = G.length := by rw [hws, List.length_map]
  have hSM : groupsSize N G = N + ws.sum := rfl
  have hoffk : ∀ k, colOffset N G k = N + (ws.take k).sum := by
    intro k
    rw [hws, ← List.map_take]
    rfl
  have hwsk : ∀ k, k < G.length → ws.getD k 0 = Gwidth G k := by
    intro k hk
    rw [hws, getD_map _ _ _ hk 0 ("", [])]
    rfl
  have hGk : ∀ k, k < G.length → RectM (Gmat G k) N (Gwidth G k) := by
    intro k hk
    exact hG _ (getD_mem G k hk _)
  intro p q hp hq
  rw [hSM] at hp hq
  rcases idx_decomp ws N p hp with hpN | hpB
  · rcases idx_decomp ws N q hq with hqN | hqB
    · rw [hB1 p q hpN hqN, hB1 q p hqN hpN, laplacian_symm hA hN p q]
      congr 1
      by_cases hpq : p = q
      · rw [hpq]
      · rw [if_neg hpq, if_neg (fun h => hpq h.symm)]
    · obtain ⟨k2, j, hk20, hj0, hqe⟩ := hqB
      have hk2 : k2 < G.length := by rw [hwslen] at hk20; exact hk20
      have hj : j < Gwidth G k2 := by rw [hwsk k2 hk2] at hj0; exact hj0
      have hqoff : q = colOffset N G k2 + j := by rw [hoffk k2]; omega
      rw [hqoff, hB2 k2 hk2 p j hpN hj, hB3 k2 hk2 j p hj hpN]
      exact lem_LG_sym hA hN (hGk k2 hk2) p j hpN hj
  · obtain ⟨k, i, hk0, hi0, hpe⟩ := hpB
    have hk : k < G.length := by rw [hwslen] at hk0; exact hk0
    have hi : i < Gwidth G k := by rw [hwsk k hk] at hi0; exact hi0
    have hpoff : p = colOffset N G k + i := by rw [hoffk k]; omega
    rcases idx_decomp ws N q hq with hqN | hqB
    · rw [hpoff, hB3 k hk i q hi hqN, hB2 k hk q i hqN hi]
      exact (lem_LG_sym hA hN (hGk k hk) q i hqN hi).symm
    · obtain ⟨k2, j, hk20, hj0, hqe⟩ := hqB
      have hk2 : k2 < G.length := by rw [hwslen] at hk20; exact hk20
      have hj : j < Gwidth G k2 := by rw [hwsk k2 hk2] at hj0; exact hj0
      have hqoff : q = colOffset N G k2 + j := by rw [hoffk k2]; omega
      rw [hpoff, hqoff, hB4 k k2 hk hk2 i j hi hj, hB4 k2 k hk2 hk j i hj hi]
      rw [lem_grid_sym hA hN (hGk k hk) (hGk k2 hk2) i j hi hj]
      congr 1
      by_cases hkk : k = k2
      · subst hkk
        by_cases hij : i = j
        · rw [hij]
        · rw [if_neg (fun h => hij h.2), if_neg (fun h => hij h.2.symm)]
      · rw [if_neg (fun h => hkk h.1), if_neg (fun h => hkk h.1.symm)]

set_option maxHeartbeats 1600000 in
/-- C5 (amended): when the group keys of `reg_coeff` are iterated in the
same order as the keys of `G`, the assembled grouped operator `K` is a
symmetric square matrix of size `N + sum M_t`, with top-left block
`lambda_individual * I + L`, column blocks `L @ G_t`, row blocks
`G_t.T @ L`, and group-group blocks `G_t.T @ L @ G_s`, the diagonal ones
augmented by `lambda_t * I`.  (For differing iteration orders the row
blocks are permuted against the column blocks and `K` need not be
symmetric — see the counterexample.) -/
theorem C5_grouped_operator (A : Mat) (G : List (String × Mat)) (reg : List (String × ℚ))
    (N : Nat) (lamInd : ℚ)
    (hA : RectM A N N) (hN : 0 < N)
    (hG : ∀ p ∈ G, RectM p.2 N (numCols p.2))
    (hnodup : (G.map Prod.fst).Nodup)
    (hkeys : (regGroups reg).map Prod.fst = G.map Prod.fst)
    (hind : reg.lookup "individual" = some lamInd) :
    ∃ K d, SR_groups_assemble A G reg = some (K, d) ∧
      RectM K (groupsSize N G) (groupsSize N G) ∧
      (∀ i j, i < N → j < N →
        mget K i j = mget (laplacian A) i j + (if i = j then lamInd else 0)) ∧
      (∀ k, k < G.length → ∀ i j, i < N → j < Gwidth G k →
        mget K i (colOffset N G k + j) = mget (mmul (laplacian A) (Gmat G k)) i j) ∧
      (∀ k, k < G.length → ∀ i j, i < Gwidth G k → j < N →
        mget K (colOffset N G k + i) j = mget (mmul (mT (Gmat G k)) (laplacian A)) i j) ∧
      (∀ k k2, k < G.length → k2 < G.length →
        ∀ i j, i < Gwidth G k → j < Gwidth G k2 →
        mget K (colOffset N G k + i) (colOffset N G k2 + j) =
          mget (mmul (mT (Gmat G k)) (mmul (laplacian A) (Gmat G k2))) i j +
          (if k = k2 ∧ i = j then regLam reg k else 0)) ∧
      (∀ p q, p < groupsSize N G → q < groupsSize N G → mget K p q = mget K q p) := by
  have hcov : ∀ p ∈ reg, p.1 = "individual" ∨ (G.lookup p.1).isSome = true := by
    intro p hp
    by_cases hpi : p.1 = "individual"
    · exact Or.inl hpi
    · right
      have hpmem : p ∈ regGroups reg := by
        unfold regGroups
        rw [List.mem_filter]
        exact ⟨hp, by simpa using hpi⟩
      have hmem2 : p.1 ∈ G.map Prod.fst := by
        rw [← hkeys]
        exact List.mem_map_of_mem Prod.fst hpmem
      obtain ⟨q, hq, hq1⟩ := List.mem_map.mp hmem2
      rw [← hq1, lookup_of_mem_nodup G hnodup q.1 q.2 (by rw [Prod.mk.eta]; exact hq)]
      rfl
  obtain ⟨d, hassm⟩ := assemble_normal_form A G reg lamInd hind hcov
  refine ⟨c5K A G reg lamInd, d, hassm,
    c5K_rect A G reg N lamInd hA hN hG hnodup hkeys,
    c5K_B1 A G reg N lamInd hA hN hG hnodup hkeys,
    c5K_B2 A G reg N lamInd hA hN hG hnodup hkeys,
    c5K_B3 A G reg N lamInd hA hN hG hnodup hkeys,
    c5K_B4 A G reg N lamInd hA hN hG hnodup hkeys,
    c5_sym_of_blocks A G reg N lamInd (c5K A G reg lamInd) hA hN hG
      (c5K_B1 A G reg N lamInd hA hN hG hnodup hkeys)
      (c5K_B2 A G reg N lamInd hA hN hG hnodup hkeys)
      (c5K_B3 A G reg N lamInd hA hN hG hnodup hkeys)
      (c5K_B4 A G reg N lamInd hA hN hG hnodup hkeys)⟩

set_option maxHeartbeats 4000000 in
/-- C5 counterexample: the row blocks of `K` are stacked in the iteration
order of `reg_coeff` while the column blocks follow the iteration order of
`G`, so with group order (a, b) in `G` but regularization order
(individual, b, a) in `reg_coeff` the assembled operator on the 2-node
network `Aex` is not symmetric: `K[0][2] = 0` but `K[2][0] = 1`. -/
theorem C5_operator_asymmetry_counterexample :
    ∃ K d, SR_groups_assemble Aex Gex2 regEx2 = some (K, d) ∧ mget K 0 2 ≠ mget K 2 0 := by
  have hassm : SR_groups_assemble Aex Gex2 regEx2 =
      some ([[2, -1, 0, 1, -1], [-1, 2, 0, -1, 1], [1, -1, 0, 3, -1],
             [-1, 1, 0, -1, 3], [0, 0, 1, 0, 0]], [1, -1, 1, -1, 0]) := by
    unfold SR_groups_assemble
    simp only [List.lookup, regEx2, groupsLoop, Gex2, groupBlocks, groupRow,
      List.map, List.foldl]
    simp only [reduceIte, String.reduceBEq, String.reduceEq]
    norm_num [laplacian, msub, madd, mdiag, mT, msmul, meye, mmul,
      mvmul, hstack, vstack, mkMat, mkVec, mget, vget, numRows, numCols, rowSums, colSums,
      vadd, vsub, sumR, List.range_succ, Aex, String.reduceEq, String.reduceBEq, reduceIte]
  refine ⟨_, _, hassm, ?_⟩
  norm_num [mget]

/-- Witness for C5's amended theorem: the 1-node, 1-group instance, whose
`reg_coeff` iterates the group keys in the same order as `G`. -/
theorem C5_grouped_operator_witness :
    ∃ K d, SR_groups_assemble Aone Gone regOne = some (K, d) ∧
      RectM K (groupsSize 1 Gone) (groupsSize 1 Gone) ∧
      (∀ i j, i < 1 → j < 1 →
        mget K i j = mget (laplacian Aone) i j + (if i = j then (1 : ℚ) else 0)) ∧
      (∀ k, k < Gone.length → ∀ i j, i < 1 → j < Gwidth Gone k →
        mget K i (colOffset 1 Gone k + j) =
          mget (mmul (laplacian Aone) (Gmat Gone k)) i j) ∧
      (∀ k, k < Gone.length → ∀ i j, i < Gwidth Gone k → j < 1 →
        mget K (colOffset 1 Gone k + i) j =
          mget (mmul (mT (Gmat Gone k)) (laplacian Aone)) i j) ∧
      (∀ k k2, k < Gone.length → k2 < Gone.length →
        ∀ i j, i < Gwidth Gone k → j < Gwidth Gone k2 →
        mget K (colOffset 1 Gone k + i) (colOffset 1 Gone k2 + j) =
          mget (mmul (mT (Gmat Gone k)) (mmul (laplacian Aone) (Gmat Gone k2))) i j +
          (if k = k2 ∧ i = j then regLam regOne k else 0)) ∧
      (∀ p q, p < groupsSize 1 Gone → q < groupsSize 1 Gone → mget K p q = mget K q p) :=
  C5_grouped_operator Aone Gone regOne 1 1 (by decide) (by decide) (by decide)
    (by decide) (by decide) rfl
